import Mathlib

/-!
Verification of the apparatus-document pipeline of the solid-rock-hb
repository: a shallow embedding in Lean 4 of the Python classes
`tei_segmenter`, `tei_collation_editor`, `tei_collator`, `tei_labeler`
and the string functions of `tei_normalizer`, together with theorems
settling the stated properties of those components.

The XML documents this pipeline manipulates are, at the stage the
embedded functions see them, flat: the `<body/>` is a sequence of
childless token elements (`w`, `pc`, `milestone`, `divGen`, ...) and
`<app/>` elements whose `<lem/>`/`<rdg/>` readings again contain only
childless token elements.  The embedding models exactly this document
shape.
-/

set_option maxRecDepth 4000

namespace SolidRock

/-! ## Python string helpers -/

/-- Split a character list at each whitespace character. -/
def wsSplit : List Char → List (List Char)
  | [] => [[]]
  | c :: rest =>
    let r := wsSplit rest
    if c.isWhitespace then [] :: r
    else
      match r with
      | [] => [[c]]
      | g :: gs => (c :: g) :: gs

/-- Python `str.split()` (no argument): split on whitespace, dropping
empty pieces. -/
def pySplitWs (s : String) : List String :=
  ((wsSplit s.data).map (fun g => String.mk g)).filter (fun p => p ≠ "")

/-- Python `set(a) == set(b)` on lists of strings: equality of the
underlying sets of elements. -/
def pySetEq (a b : List String) : Bool :=
  a.all (fun x => x ∈ b) && b.all (fun x => x ∈ a)

/-- Python `str.replace(old, new)` for the one use `wit_ref.replace('#', '')`:
remove every `#` character. -/
def stripHash (s : String) : String :=
  ⟨s.data.filter (fun c => c ≠ '#')⟩

/-! ## The generic segmenter (`tei_segmenter`)

`tei_segmenter.segment` rewrites the `<body/>` of a normalized document
into a flat list of `<seg/>` wrappers; `tei_segmenter.desegment` splices
each wrapper's children back.  Body children are modelled with their tag
and a numeric identity (`uid`) so that distinct occurrences of elements
with equal tags stay distinguishable. -/

/-- An element of the flat normalized body as seen by `tei_segmenter`:
its tag plus a numeric identity distinguishing occurrences. -/
structure PElem where
  tag : String
  uid : Nat
deriving DecidableEq, Repr

/-- A body child after segmentation: either a `<seg/>` wrapper produced
by `segment` (carrying its `type` and `n` attributes and its children)
or an ordinary element kept as-is. -/
inductive BElem where
  | seg (typ n : String) (children : List PElem)
  | node (e : PElem)
deriving DecidableEq, Repr

/-- The tag of a flat body element (`child.tag` with the namespace
stripped). -/
def PElem.rawTag (e : PElem) : String := e.tag

/-- `tei_segmenter.prefix_tags`. -/
def segmenterPrefixTags : List String := ["divGen"]

/-- Loop state of `tei_segmenter.segment`: the indices dictionary, the
queue of elements for the current segment, the current segment type and
index, the positioning state of the previous element, and the segments
already sealed into the new body. -/
structure SegmenterState where
  substantiveIndices : List (String × Nat)
  segmentElements : List PElem
  segmentType : String
  segmentN : String
  pos : Int
  segmentedBody : List BElem

/-- Dictionary lookup (`raw_tag in substantive_indices` / access). -/
def dictFind (d : List (String × Nat)) (k : String) : Option Nat :=
  (d.find? (fun p => p.1 = k)).map (·.2)

/-- Dictionary update: replace the value of the first matching key, or
append the pair when the key is absent (Python dict assignment). -/
def dictSet (d : List (String × Nat)) (k : String) (v : Nat) : List (String × Nat) :=
  match d with
  | [] => [(k, v)]
  | (k', v') :: rest =>
    if k' = k then (k, v) :: rest else (k', v') :: dictSet rest k v

/-- One iteration of the `for child in body.getchildren()` loop of
`tei_segmenter.segment`. -/
def segmentStep (ignored : List String) (st : SegmenterState) (child : PElem) :
    SegmenterState :=
  let rawTag := child.rawTag
  -- positioning value of the current element
  let childPos : Int :=
    if rawTag ∉ ignored then 0
    else if rawTag ∈ segmenterPrefixTags then 1
    else -1
  -- increment the latest index for a substantive element's tag
  let indices :=
    if rawTag ∉ ignored then
      match dictFind st.substantiveIndices rawTag with
      | none => dictSet st.substantiveIndices rawTag 0
      | some i => dictSet st.substantiveIndices rawTag (i + 1)
    else st.substantiveIndices
  -- set the segment type/index if not already set
  let (styp, sn) :=
    if rawTag ∉ ignored ∧ st.segmentType = "" then
      (rawTag, toString ((dictFind indices rawTag).getD 0))
    else (st.segmentType, st.segmentN)
  -- open a new segment boundary?
  if childPos > st.pos ∨ (childPos = 0 ∧ st.pos = 0) then
    let sealed := BElem.seg styp sn st.segmentElements
    let (styp', sn') :=
      if rawTag ∉ ignored then
        (rawTag, toString ((dictFind indices rawTag).getD 0))
      else ("", "")
    { substantiveIndices := indices
      segmentElements := [child]
      segmentType := styp'
      segmentN := sn'
      pos := childPos
      segmentedBody := st.segmentedBody ++ [sealed] }
  else
    { substantiveIndices := indices
      segmentElements := st.segmentElements ++ [child]
      segmentType := styp
      segmentN := sn
      pos := childPos
      segmentedBody := st.segmentedBody }

/-- `tei_segmenter.segment`, acting on the list of body children.  The
loop never flushes the queue `segment_elements` after its last
iteration: whatever remains queued stays in the old `<body/>`, which is
then removed from the tree, so only `segmentedBody` survives. -/
def segmenterSegment (ignored : List String) (body : List PElem) : List BElem :=
  (body.foldl (segmentStep ignored)
    { substantiveIndices := []
      segmentElements := []
      segmentType := ""
      segmentN := ""
      pos := 1
      segmentedBody := [] }).segmentedBody

/-- `tei_segmenter.desegment`: splice each `<seg/>` wrapper's children
back into the body, keeping any non-`seg` child as-is. -/
def segmenterDesegment (body : List BElem) : List BElem :=
  body.flatMap (fun child =>
    match child with
    | .seg _ _ children => children.map .node
    | other => [other])

/-! ### C1: the segment/desegment round trip -/

/-- A body consisting of one substantive `<w/>` element. -/
def c1Body : List PElem := [⟨"w", 0⟩]

/-- C1 (code bug exhibited): for the one-element body `[<w/>]` and the
empty ignored-tag set, `segment` seals no segment at all (the single
element is still in the queue when the loop ends and is discarded with
the old body), so `desegment (segment B)` is empty rather than `B`.
The claimed round-trip identity `desegment (segment B T) = B` therefore
fails on this input. -/
theorem c1_segment_drops_last_segment :
    segmenterSegment [] c1Body = [] ∧
    segmenterDesegment (segmenterSegment [] c1Body) = [] ∧
    segmenterDesegment (segmenterSegment [] c1Body) ≠ c1Body.map BElem.node := by
  refine ⟨rfl, rfl, ?_⟩
  decide

/-! ## The collation-editor document model (`tei_collation_editor`)

A collation document's `<body/>` is a flat sequence of childless token
elements and `<app/>` elements; each `<lem/>`/`<rdg/>` reading of an
`<app/>` again holds a flat sequence of childless token elements. -/

/-- A childless token element with the attributes the pipeline reads:
the local tag, the `type`, `n`, `unit` attributes and the text. -/
structure Tok where
  tag : String
  typ : Option String
  n : Option String
  unit : Option String
  text : Option String
deriving DecidableEq, Repr

/-- A `<lem/>` or `<rdg/>` reading: its `wit` attribute (absent for a
lemma reading) and its content. -/
structure Reading where
  wit : Option String
  content : List Tok
deriving DecidableEq, Repr

/-- An `<app/>` element: its `n` and `type` attributes, its `<lem/>`
children and its `<rdg/>` children, in document order. -/
structure App where
  attrN : Option String
  attrType : Option String
  lems : List Reading
  rdgs : List Reading
deriving DecidableEq, Repr

/-- A child of the `<body/>`: a token element or an apparatus. -/
inductive BodyElem where
  | tok (t : Tok)
  | app (a : App)
deriving DecidableEq, Repr

/-- A collation document: the ids of the `<witness/>` elements of its
`<listWit/>` (`witness.get('id')`, which may be absent) and its body. -/
structure CollDoc where
  listWit : List (Option String)
  body : List BodyElem
deriving DecidableEq, Repr

/-- Is this token a `<divGen type="seg"/>` segment-division marker? -/
def Tok.isSegMarker (t : Tok) : Bool :=
  t.tag = "divGen" ∧ t.typ = some "seg"

/-- `len(r.xpath('.//tei:divGen[@type=\'seg\']'))` for a reading. -/
def countSegMarkers (content : List Tok) : Nat :=
  (content.filter Tok.isSegMarker).length

/-- The `<app/>` elements of a document, in document order
(`xml.xpath('//tei:app')`). -/
def CollDoc.apps (d : CollDoc) : List App :=
  d.body.filterMap (fun e => match e with | .app a => some a | .tok _ => none)

/-- The diagnostic printed by `validate` for a mismatching reading. -/
def validateMsg (appN : String) : String :=
  "The apparatus with index " ++ appN ++
    " has a reading with a different number of segment division markers than the lemma."

/-- The body of `tei_collation_editor.validate`'s loop for one
apparatus: `none` models the `IndexError` raised by
`app.xpath('.//tei:lem')[0]` when the apparatus has no lemma reading;
otherwise the pair of the validity flag for this apparatus and the
diagnostics printed for it (one per mismatching reading). -/
def validateApp (a : App) : Option (Bool × List String) := do
  let appN := a.attrN.getD ""
  let lem ← a.lems.head?
  let nSegs := countSegMarkers lem.content
  let msgs := (a.rdgs.filter (fun r => countSegMarkers r.content ≠ nSegs)).map
    (fun _ => validateMsg appN)
  pure (msgs.isEmpty, msgs)

/-- `tei_collation_editor.validate`: scan every apparatus of the
document, never stopping early; the result is the final `valid` flag
together with all diagnostics printed along the way. -/
def validate (d : CollDoc) : Option (Bool × List String) := do
  let results ← d.apps.mapM validateApp
  pure (results.all (·.1), (results.map (·.2)).flatten)

/-- Does some reading of this apparatus have a segment-marker count
different from the (first) lemma reading's? -/
def App.hasMismatch (a : App) (lem : Reading) : Prop :=
  ∃ r ∈ a.rdgs, countSegMarkers r.content ≠ countSegMarkers lem.content

instance (a : App) (lem : Reading) : Decidable (a.hasMismatch lem) := by
  unfold App.hasMismatch; infer_instance

/-- The value of `validateApp` when the apparatus has a lemma reading
(and a placeholder on apparatuses with none, where `validateApp` fails). -/
def validateAppPure (a : App) : Bool × List String :=
  match a.lems.head? with
  | none => (true, [])
  | some lem =>
    let msgs := (a.rdgs.filter
        (fun r => countSegMarkers r.content ≠ countSegMarkers lem.content)).map
      (fun _ => validateMsg (a.attrN.getD ""))
    (msgs.isEmpty, msgs)

theorem validateApp_eq_pure (a : App) (h : a.lems ≠ []) :
    validateApp a = some (validateAppPure a) := by
  cases hl : a.lems with
  | nil => exact absurd hl h
  | cons lem rest => simp [validateApp, validateAppPure, hl]

theorem mapM_eq_some_of_forall {α β : Type} (f : α → Option β) (g : α → β)
    (l : List α) (h : ∀ a ∈ l, f a = some (g a)) :
    l.mapM f = some (l.map g) := by
  induction l with
  | nil => rfl
  | cons x xs ih =>
    rw [List.mapM_cons, h x (by simp), ih (fun a ha => h a (by simp [ha]))]
    rfl

/-! ### C2: validate is a full scan, true iff no mismatch anywhere -/

/-- C2: when every apparatus has a lemma reading, `validate` succeeds;
it returns `True` exactly when in every apparatus every `<rdg/>` has as
many `divGen[type="seg"]` markers as that apparatus's `<lem/>`; and it
scans the whole document, emitting for every mismatching apparatus a
diagnostic naming that apparatus's index, rather than stopping at the
first mismatch. -/
theorem c2_validate_full_scan (d : CollDoc)
    (h : ∀ a ∈ d.apps, a.lems ≠ []) :
    ∃ valid msgs, validate d = some (valid, msgs) ∧
      (valid = true ↔ ∀ a ∈ d.apps, ∀ lem ∈ a.lems.head?, ∀ r ∈ a.rdgs,
        countSegMarkers r.content = countSegMarkers lem.content) ∧
      (∀ a ∈ d.apps, ∀ lem ∈ a.lems.head?, a.hasMismatch lem →
        validateMsg (a.attrN.getD "") ∈ msgs) := by
  refine ⟨(d.apps.map validateAppPure).all (·.1),
    ((d.apps.map validateAppPure).map (·.2)).flatten, ?_, ?_, ?_⟩
  · unfold validate
    rw [mapM_eq_some_of_forall validateApp validateAppPure d.apps
      (fun a ha => validateApp_eq_pure a (h a ha))]
    rfl
  · rw [List.all_eq_true]
    constructor
    · intro hall a ha lem hlem r hr
      rw [Option.mem_def] at hlem
      have := hall _ (List.mem_map.mpr ⟨a, ha, rfl⟩)
      simp only [validateAppPure, hlem] at this
      by_contra hne
      rw [List.isEmpty_iff, List.map_eq_nil_iff, List.filter_eq_nil_iff] at this
      exact this r hr (by simpa using hne)
    · intro hall p hp
      obtain ⟨a, ha, rfl⟩ := List.mem_map.mp hp
      cases hlem : a.lems.head? with
      | none => simp [validateAppPure, hlem]
      | some lem =>
        simp only [validateAppPure, hlem, List.isEmpty_iff, List.map_eq_nil_iff,
          List.filter_eq_nil_iff]
        intro r hr
        simp [hall a ha lem hlem r hr]
  · intro a ha lem hlem hmis
    rw [Option.mem_def] at hlem
    obtain ⟨r, hr, hne⟩ := hmis
    apply List.mem_flatten.mpr
    refine ⟨(validateAppPure a).2, List.mem_map.mpr ⟨_, List.mem_map.mpr ⟨a, ha, rfl⟩, rfl⟩, ?_⟩
    simp only [validateAppPure, hlem]
    exact List.mem_map.mpr
      ⟨r, List.mem_filter.mpr ⟨hr, by simp only [decide_eq_true_eq]; exact hne⟩, rfl⟩

/-- A concrete document: two apparatuses, the second with a mismatching
reading. -/
def c2Doc : CollDoc :=
  { listWit := [some "A", some "B"]
    body :=
      [ .app { attrN := some "0", attrType := none
               lems := [⟨none, [⟨"divGen", some "seg", none, none, none⟩]⟩]
               rdgs := [⟨some "#A #B", [⟨"divGen", some "seg", none, none, none⟩]⟩] }
      , .app { attrN := some "1", attrType := none
               lems := [⟨none, [⟨"divGen", some "seg", none, none, none⟩]⟩]
               rdgs := [⟨some "#A", [⟨"divGen", some "seg", none, none, none⟩]⟩,
                        ⟨some "#B", []⟩] } ] }

theorem c2_validate_full_scan_witness :
    (∀ a ∈ c2Doc.apps, a.lems ≠ []) ∧
    (∃ valid msgs, validate c2Doc = some (valid, msgs) ∧
      (valid = true ↔ ∀ a ∈ c2Doc.apps, ∀ lem ∈ a.lems.head?, ∀ r ∈ a.rdgs,
        countSegMarkers r.content = countSegMarkers lem.content) ∧
      (∀ a ∈ c2Doc.apps, ∀ lem ∈ a.lems.head?, a.hasMismatch lem →
        validateMsg (a.attrN.getD "") ∈ msgs)) :=
  ⟨by decide, c2_validate_full_scan c2Doc (by decide)⟩

/-! ## Lemma and witness projection (`get_lemma_xml`, `get_witness_xml`)

Both functions build a fresh `<TEI/><text/><body/>` scaffold (copying
the `<text/>` attributes) and then populate the new body; the scaffold
plays no further role downstream, so the projections are modelled by the
body they produce. -/

/-- The contribution of one body child to the lemma projection: an
apparatus contributes the children of its first `<lem/>` descendant
(`none` models the `IndexError` when there is no lemma reading), every
other child is copied as-is. -/
def lemPart : BodyElem → Option (List Tok)
  | .app a => (a.lems.head?).map (·.content)
  | .tok t => some [t]

/-- Concatenate the per-child contributions of a projection, failing as
soon as one child's contribution fails (the exception propagates out of
the `for child in body` loop). -/
def flatProj (f : BodyElem → Option (List Tok)) : List BodyElem → Option (List Tok)
  | [] => some []
  | e :: rest => (f e).bind (fun x => (flatProj f rest).map (fun xs => x ++ xs))

/-- `tei_collation_editor.get_lemma_xml`, modelled by the body of the
projection it builds. -/
def get_lemma_xml (d : CollDoc) : Option (List Tok) :=
  flatProj lemPart d.body

/-- The scan over an apparatus's readings in
`tei_collation_editor.get_witness_xml`: the first `<rdg/>` whose
(whitespace-split) `wit` list contains the reference wins and
contributes its children; when no reading matches, the placeholder
`wit_rdg = et.Element('rdg')` is still in force and contributes nothing;
a reading with no `wit` attribute reached before a match makes
`rdg.get('wit').split()` raise (`none`). -/
def selectWitRdg (ref : String) : List Reading → Option (List Tok)
  | [] => some []
  | r :: rs =>
    match r.wit with
    | none => none
    | some w => if ref ∈ pySplitWs w then some r.content else selectWitRdg ref rs

/-- The contribution of one body child to the witness projection. -/
def witPart (ref : String) : BodyElem → Option (List Tok)
  | .app a => selectWitRdg ref a.rdgs
  | .tok t => some [t]

/-- `tei_collation_editor.get_witness_xml`, modelled by the body of the
projection it builds for witness `wit`. -/
def get_witness_xml (d : CollDoc) (wit : String) : Option (List Tok) :=
  flatProj (witPart ("#" ++ wit)) d.body

/-- `tei_collation_editor.segment`: split the body at each
`<divGen type="seg"/>` marker (the marker itself is dropped), keeping
the running segment and appending the final one after the loop. -/
def segmentCE (body : List Tok) : List (List Tok) :=
  let st := body.foldl
    (fun (acc : List (List Tok) × List Tok) child =>
      if child.isSegMarker then (acc.1 ++ [acc.2], [])
      else (acc.1, acc.2 ++ [child]))
    ([], [])
  st.1 ++ [st.2]

/-! ## `update_boundaries` -/

/-- A rendering of a token element, standing in for
`et.tostring(...)` of the corresponding lxml node. -/
def serializeTok (t : Tok) : String :=
  let attr := fun (name : String) (v : Option String) =>
    match v with
    | none => ""
    | some s => " " ++ name ++ "=\x22" ++ s ++ "\x22"
  "<" ++ t.tag ++ attr "type" t.typ ++ attr "n" t.n ++ attr "unit" t.unit ++ ">"
    ++ (t.text.getD "") ++ "</" ++ t.tag ++ ">"

/-- `et.tostring(witness_seg)`: the serialization of a `<seg/>` wrapper
holding the given content. -/
def serializeSeg (content : List Tok) : String :=
  "<seg>" ++ String.join (content.map serializeTok) ++ "</seg>"

/-- Append a value to the entry of the first matching key
(`reading_support[s].append(wit)`). -/
def assocAppend (l : List (String × List String)) (k : String) (v : String) :
    List (String × List String) :=
  match l with
  | [] => []
  | (k', vs) :: rest =>
    if k' = k then (k', vs ++ [v]) :: rest else (k', vs) :: assocAppend rest k v

/-- Assoc-list lookup by key. -/
def assocFind (l : List (String × List String)) (k : String) : Option (List String) :=
  (l.find? (fun p => p.1 = k)).map (·.2)

/-- The inner `for wit in witnesses` loop of `update_boundaries` at a
fixed segment index `i`: look the witness's segment list up in
`xml_by_witness`, access its `i`-th segment (`none` models the
`IndexError` when the witness has fewer segments), and record the
segment under the serialization key in `rdg_segs`/`reading_support`. -/
def groupWitnesses (xmlByWitness : List (String × List (List Tok))) (i : Nat) :
    List String → (List (List Tok) × List (String × List String)) →
    Option (List (List Tok) × List (String × List String))
  | [], st => some st
  | w :: rest, st => do
    let wsegList := ((xmlByWitness.find? (fun p => p.1 = w)).map (·.2)).getD []
    let wseg ← wsegList.get? i
    let s := serializeSeg wseg
    let st' := if (assocFind st.2 s).isSome then (st.1, assocAppend st.2 s w)
      else (st.1 ++ [wseg], st.2 ++ [(s, [w])])
    groupWitnesses xmlByWitness i rest st'

/-- The body contribution of one segment index of `update_boundaries`:
the lemma segment's content when only one variant is present, otherwise
a freshly built apparatus. -/
def segContribution (lemSeg : List Tok)
    (st : List (List Tok) × List (String × List String)) : List BodyElem :=
  if st.2.length = 1 then lemSeg.map BodyElem.tok
  else [BodyElem.app
    { attrN := none, attrType := none
      lems := [⟨none, lemSeg⟩]
      rdgs := st.1.map (fun seg =>
        { wit := some (" ".intercalate
            (((assocFind st.2 (serializeSeg seg)).getD []).map (fun w => "#" ++ w)))
          content := seg }) }]

/-- `tei_collation_editor.update_boundaries`. -/
def update_boundaries (d : CollDoc) : Option (List BodyElem) := do
  -- get_witnesses, then '#' + wit inside get_witness_xml raises on a
  -- witness element with no id
  let wits ← d.listWit.mapM id
  let lemmaBody ← get_lemma_xml d
  let lemSegs := segmentCE lemmaBody
  let xmlByWitness ← wits.mapM (fun w => do
    let wb ← get_witness_xml d w
    pure (w, segmentCE wb))
  let updated ← (List.range lemSegs.length).mapM (fun i => do
    let st ← groupWitnesses xmlByWitness i wits ([], [])
    pure (segContribution (lemSegs.getD i []) st))
  pure updated.flatten

/-! ### Basic facts about the projections -/

theorem flatProj_nil (f : BodyElem → Option (List Tok)) : flatProj f [] = some [] := rfl

theorem flatProj_cons (f : BodyElem → Option (List Tok)) (e : BodyElem)
    (rest : List BodyElem) :
    flatProj f (e :: rest) =
      (f e).bind (fun x => (flatProj f rest).map (fun xs => x ++ xs)) := rfl

theorem flatProj_append (f : BodyElem → Option (List Tok)) (b1 b2 : List BodyElem) :
    flatProj f (b1 ++ b2) =
      (flatProj f b1).bind (fun x => (flatProj f b2).map (fun y => x ++ y)) := by
  induction b1 with
  | nil =>
    cases h2 : flatProj f b2 <;> simp [flatProj_nil, h2]
  | cons e rest ih =>
    rw [List.cons_append, flatProj_cons, flatProj_cons, ih]
    cases f e <;> cases flatProj f rest <;> cases flatProj f b2 <;> simp

/-- When every reading of the list carries a `wit` attribute that does
not contain the reference, the scan falls through to the fresh empty
`<rdg/>` placeholder. -/
theorem selectWitRdg_no_match (ref : String) (rdgs : List Reading)
    (h : ∀ r ∈ rdgs, ∃ w, r.wit = some w ∧ ref ∉ pySplitWs w) :
    selectWitRdg ref rdgs = some [] := by
  induction rdgs with
  | nil => rfl
  | cons r rs ih =>
    obtain ⟨w, hw, hnot⟩ := h r (by simp)
    simp only [selectWitRdg, hw, if_neg hnot]
    exact ih (fun r' hr' => h r' (by simp [hr']))

/-- The first matching reading wins. -/
theorem selectWitRdg_first_match (ref : String) (rs1 rs2 : List Reading)
    (r : Reading) (w : String)
    (h1 : ∀ r' ∈ rs1, ∃ w', r'.wit = some w' ∧ ref ∉ pySplitWs w')
    (hw : r.wit = some w) (hmem : ref ∈ pySplitWs w) :
    selectWitRdg ref (rs1 ++ r :: rs2) = some r.content := by
  induction rs1 with
  | nil => simp [selectWitRdg, hw, hmem]
  | cons r' rs ih =>
    obtain ⟨w', hw', hnot⟩ := h1 r' (by simp)
    simp only [List.cons_append, selectWitRdg, hw', if_neg hnot]
    exact ih (fun x hx => h1 x (by simp [hx]))

/-! ### C6: witness projection when no reading matches -/

/-- A document with a single apparatus whose only reading supports
witness `A` only. -/
def c6Doc : CollDoc :=
  { listWit := [some "A", some "B"]
    body :=
      [ .app { attrN := none, attrType := none
               lems := [⟨none, [⟨"w", none, none, none, some "X"⟩]⟩]
               rdgs := [⟨some "#A", [⟨"w", none, none, none, some "X"⟩]⟩] } ] }

/-- C6 counterexample: in `c6Doc` no reading's `wit` contains `#B`, yet
`get_witness_xml` does not fail: it returns a projection (with an empty
body), contradicting the claim that an unmatched witness reference is a
fatal lookup error. -/
theorem c6_no_match_is_not_fatal :
    get_witness_xml c6Doc "B" = some [] ∧ (get_witness_xml c6Doc "B").isSome = true := by
  constructor <;> decide

/-- C6 amended: when every reading of an apparatus carries a `wit`
attribute and none contains the witness reference, `get_witness_xml`
silently lets the apparatus contribute nothing to the projection
(instead of failing); when a match exists after non-matching readings
with `wit` attributes, the first matching reading's content is used. -/
theorem c6_first_match_else_empty (lw : List (Option String))
    (pre post : List BodyElem) (a : App) (wit : String) (preB postB : List Tok)
    (hpre : get_witness_xml ⟨lw, pre⟩ wit = some preB)
    (hpost : get_witness_xml ⟨lw, post⟩ wit = some postB) :
    ((∀ r ∈ a.rdgs, ∃ w, r.wit = some w ∧ ("#" ++ wit) ∉ pySplitWs w) →
      get_witness_xml ⟨lw, pre ++ BodyElem.app a :: post⟩ wit = some (preB ++ postB)) ∧
    (∀ rs1 rs2 (r : Reading) (w : String), a.rdgs = rs1 ++ r :: rs2 →
      (∀ r' ∈ rs1, ∃ w', r'.wit = some w' ∧ ("#" ++ wit) ∉ pySplitWs w') →
      r.wit = some w → ("#" ++ wit) ∈ pySplitWs w →
      get_witness_xml ⟨lw, pre ++ BodyElem.app a :: post⟩ wit =
        some (preB ++ r.content ++ postB)) := by
  simp only [get_witness_xml] at hpre hpost
  constructor
  · intro hnone
    show flatProj (witPart ("#" ++ wit)) (pre ++ BodyElem.app a :: post) = _
    rw [flatProj_append, hpre, flatProj_cons]
    simp only [witPart, selectWitRdg_no_match _ _ hnone, hpost]
    simp
  · intro rs1 rs2 r w hsplit h1 hw hmem
    show flatProj (witPart ("#" ++ wit)) (pre ++ BodyElem.app a :: post) = _
    rw [flatProj_append, hpre, flatProj_cons]
    simp only [witPart, hsplit, selectWitRdg_first_match _ _ _ _ _ h1 hw hmem, hpost]
    simp [List.append_assoc]

/-- Tokens and an apparatus for the C6 witness instance. -/
def c6T0 : Tok := ⟨"w", none, none, none, some "before"⟩

def c6T1 : Tok := ⟨"w", none, none, none, some "after"⟩

def c6TX : Tok := ⟨"w", none, none, none, some "X"⟩

def c6TY : Tok := ⟨"w", none, none, none, some "Y"⟩

def c6App : App :=
  { attrN := none, attrType := none
    lems := [⟨none, [c6TX]⟩]
    rdgs := [⟨some "#A", [c6TX]⟩, ⟨some "#B", [c6TY]⟩] }

theorem c6_first_match_else_empty_witness :
    get_witness_xml ⟨[some "A"], [.tok c6T0] ++ BodyElem.app c6App :: [.tok c6T1]⟩ "B" =
      some ([c6T0] ++ [c6TY] ++ [c6T1]) :=
  (c6_first_match_else_empty [some "A"] [.tok c6T0] [.tok c6T1] c6App "B"
      [c6T0] [c6T1] (by decide) (by decide)).2
    [⟨some "#A", [c6TX]⟩] [] ⟨some "#B", [c6TY]⟩ "#B" rfl
    (fun r' hr' => by
      rw [List.mem_singleton] at hr'
      exact ⟨"#A", by rw [hr'], by decide⟩)
    rfl (by decide)

/-! ### C3: characterization of `update_boundaries` -/

/-- The distinct elements of a list in order of first occurrence. -/
def firstDedup (l : List String) : List String :=
  l.foldl (fun acc x => if x ∈ acc then acc else acc ++ [x]) []

/-- The body contribution of one segment index as the specification
describes it: group the witnesses by the serialization of their segment;
with a single group copy the lemma segment's content, otherwise build an
apparatus with a `<lem/>` holding the lemma segment's content followed by
one `<rdg/>` per serialization group in first-discovery order, each
listing the `#`-references of its group's witnesses in witness-list
order and holding the first-encountered witness's segment content. -/
def claimContribution (lemSeg : List Tok) (wits : List String)
    (segOf : String → List Tok) : List BodyElem :=
  let keys := firstDedup (wits.map (fun w => serializeSeg (segOf w)))
  if keys.length = 1 then lemSeg.map BodyElem.tok
  else [BodyElem.app
    { attrN := none, attrType := none
      lems := [⟨none, lemSeg⟩]
      rdgs := keys.map (fun s =>
        { wit := some (" ".intercalate
            ((wits.filter (fun w => serializeSeg (segOf w) = s)).map (fun w => "#" ++ w)))
          content :=
            segOf (((wits.filter (fun w => serializeSeg (segOf w) = s)).head?).getD "") }) }]

/-- The pure step of the witness-grouping loop of `update_boundaries` at
a fixed segment index, with `segOf w` the witness's segment there. -/
def gStep (segOf : String → List Tok)
    (st : List (List Tok) × List (String × List String)) (w : String) :
    List (List Tok) × List (String × List String) :=
  let s := serializeSeg (segOf w)
  if (assocFind st.2 s).isSome then (st.1, assocAppend st.2 s w)
  else (st.1 ++ [segOf w], st.2 ++ [(s, [w])])

theorem firstDedup_append_singleton (l : List String) (x : String) :
    firstDedup (l ++ [x]) =
      if x ∈ firstDedup l then firstDedup l else firstDedup l ++ [x] := by
  rw [firstDedup, List.foldl_append]
  rfl

theorem mem_foldl_dedup (l : List String) (acc : List String) (x : String) :
    x ∈ l.foldl (fun acc y => if y ∈ acc then acc else acc ++ [y]) acc ↔
      x ∈ acc ∨ x ∈ l := by
  induction l generalizing acc with
  | nil => simp
  | cons c rest ih =>
    rw [List.foldl_cons, ih]
    by_cases hc : c ∈ acc
    · simp only [if_pos hc, List.mem_cons]
      constructor
      · rintro (h | h)
        · exact Or.inl h
        · exact Or.inr (Or.inr h)
      · rintro (h | h | h)
        · exact Or.inl h
        · exact Or.inl (h ▸ hc)
        · exact Or.inr h
    · simp only [if_neg hc, List.mem_append, List.mem_singleton, List.mem_cons]
      tauto

theorem mem_firstDedup (l : List String) (x : String) :
    x ∈ firstDedup l ↔ x ∈ l := by
  rw [firstDedup, mem_foldl_dedup]
  simp

theorem foldl_dedup_nodup (l : List String) (acc : List String) (h : acc.Nodup) :
    (l.foldl (fun acc y => if y ∈ acc then acc else acc ++ [y]) acc).Nodup := by
  induction l generalizing acc with
  | nil => exact h
  | cons c rest ih =>
    rw [List.foldl_cons]
    by_cases hc : c ∈ acc
    · rw [if_pos hc]; exact ih acc h
    · rw [if_neg hc]
      exact ih _ (by simp [List.nodup_append, h, hc])

theorem firstDedup_nodup (l : List String) : (firstDedup l).Nodup :=
  foldl_dedup_nodup l [] List.nodup_nil

theorem assocFind_map_val (keys : List String) (val : String → List String)
    (s : String) :
    assocFind (keys.map (fun k => (k, val k))) s =
      if s ∈ keys then some (val s) else none := by
  induction keys with
  | nil => simp [assocFind]
  | cons k rest ih =>
    by_cases hk : k = s
    · subst hk
      simp [assocFind, List.find?]
    · rw [List.map_cons]
      have : assocFind ((k, val k) :: rest.map (fun k => (k, val k))) s =
          assocFind (rest.map (fun k => (k, val k))) s := by
        simp [assocFind, List.find?, hk]
      rw [this, ih]
      simp [List.mem_cons, Ne.symm hk]

theorem assocAppend_map_val (keys : List String) (val : String → List String)
    (k : String) (v : String) (hnd : keys.Nodup) :
    assocAppend (keys.map (fun s => (s, val s))) k v =
      keys.map (fun s => (s, if s = k then val s ++ [v] else val s)) := by
  induction keys with
  | nil => rfl
  | cons s rest ih =>
    rw [List.map_cons, List.map_cons, assocAppend]
    by_cases hs : s = k
    · rw [if_pos hs, if_pos hs]
      have hkrest : k ∉ rest := hs ▸ (List.nodup_cons.mp hnd).1
      congr 1
      apply List.map_congr_left
      intro x hx
      have : x ≠ k := fun hxk => hkrest (hxk ▸ hx)
      simp [this]
    · rw [if_neg hs, if_neg hs, ih (List.nodup_cons.mp hnd).2]

/-- The witness-grouping loop, characterized: after scanning all
witnesses, `reading_support` maps each distinct serialization, in
first-discovery order, to the witnesses of its group in witness-list
order, and `rdg_segs` holds the first-encountered segment of each
group. -/
theorem gFold_spec (segOf : String → List Tok) (ws : List String) :
    (ws.foldl (gStep segOf) ([], [])).2 =
      (firstDedup (ws.map (fun w => serializeSeg (segOf w)))).map
        (fun s => (s, ws.filter (fun w => serializeSeg (segOf w) = s))) ∧
    (ws.foldl (gStep segOf) ([], [])).1 =
      (firstDedup (ws.map (fun w => serializeSeg (segOf w)))).map
        (fun s => segOf (((ws.filter (fun w => serializeSeg (segOf w) = s)).head?).getD "")) := by
  induction ws using List.reverseRecOn with
  | nil => exact ⟨rfl, rfl⟩
  | append_singleton l w ih =>
    obtain ⟨ih2, ih1⟩ := ih
    rw [List.foldl_append, List.foldl_cons, List.foldl_nil]
    set ser := fun w => serializeSeg (segOf w) with hser
    set keys := firstDedup (l.map ser) with hkeys
    have hker : ∀ s, s ∈ keys ↔ ∃ w' ∈ l, ser w' = s := by
      intro s
      rw [hkeys, mem_firstDedup]
      simp [List.mem_map]
    have hfilter_append : ∀ s, (l ++ [w]).filter (fun w' => ser w' = s) =
        l.filter (fun w' => ser w' = s) ++ if ser w = s then [w] else [] := by
      intro s
      rw [List.filter_append]
      congr 1
      by_cases h : ser w = s <;> simp [List.filter, h]
    have hmap_append : (l ++ [w]).map ser = l.map ser ++ [ser w] := by
      rw [List.map_append]; rfl
    by_cases hmem : ser w ∈ keys
    · -- existing group: append the witness to it
      have hfind : (assocFind ((l.foldl (gStep segOf) ([], [])).2) (ser w)).isSome := by
        rw [ih2, assocFind_map_val, if_pos hmem]; rfl
      rw [gStep]
      simp only [hfind, if_pos]
      have hdedup : firstDedup ((l ++ [w]).map ser) = keys := by
        rw [hmap_append, firstDedup_append_singleton, if_pos hmem]
      constructor
      · rw [ih2, assocAppend_map_val _ _ _ _ (firstDedup_nodup _), hdedup]
        apply List.map_congr_left
        intro s hs
        rw [hfilter_append s]
        by_cases h : s = ser w
        · rw [if_pos h, if_pos (h ▸ rfl)]
        · rw [if_neg h, if_neg (fun hh => h hh.symm), List.append_nil]
      · rw [ih1, hdedup]
        apply List.map_congr_left
        intro s hs
        rw [hfilter_append s]
        obtain ⟨w', hw', hsw⟩ := (hker s).mp hs
        have hne : l.filter (fun w'' => ser w'' = s) ≠ [] := by
          intro hnil
          have : w' ∈ l.filter (fun w'' => ser w'' = s) :=
            List.mem_filter.mpr ⟨hw', by simp [hsw]⟩
          rw [hnil] at this
          exact absurd this (List.not_mem_nil w')
        rw [List.head?_append_of_ne_nil _ hne]
    · -- new group
      have hfind : (assocFind ((l.foldl (gStep segOf) ([], [])).2) (ser w)).isSome = false := by
        rw [ih2, assocFind_map_val, if_neg hmem]; rfl
      rw [gStep]
      simp only [hfind, Bool.false_eq_true, if_false]
      have hdedup : firstDedup ((l ++ [w]).map ser) = keys ++ [ser w] := by
        rw [hmap_append, firstDedup_append_singleton, if_neg hmem]
      have hfilter_old : ∀ s ∈ keys, (l ++ [w]).filter (fun w' => ser w' = s) =
          l.filter (fun w' => ser w' = s) := by
        intro s hs
        rw [hfilter_append s, if_neg, List.append_nil]
        intro h
        exact hmem (h ▸ hs)
      have hfilter_new : (l ++ [w]).filter (fun w' => ser w' = ser w) = [w] := by
        rw [hfilter_append (ser w), if_pos rfl]
        have : l.filter (fun w' => ser w' = ser w) = [] := by
          rw [List.filter_eq_nil_iff]
          intro w' hw' h
          exact hmem ((hker (ser w)).mpr ⟨w', hw', by simpa using h⟩)
        rw [this, List.nil_append]
      have hnil : l.filter (fun w' => ser w' = ser w) = [] := by
        rw [List.filter_eq_nil_iff]
        intro w' hw' h
        exact hmem ((hker (ser w)).mpr ⟨w', hw', by simpa using h⟩)
      have hfn : l.find? (fun w' => ser w' = ser w) = none := by
        rw [List.find?_eq_none]
        intro w' hw' h
        exact hmem ((hker (ser w)).mpr ⟨w', hw', by simpa using h⟩)
      constructor
      · rw [ih2, hdedup, List.map_append]
        congr 1
        · apply List.map_congr_left
          intro s hs
          rw [hfilter_old s hs]
        · simp only [List.map_cons, List.map_nil, hfilter_new]
      · rw [ih1, hdedup, List.map_append]
        congr 1
        · apply List.map_congr_left
          intro s hs
          rw [hfilter_old s hs]
        · simp only [List.map_cons, List.map_nil, hfilter_new, List.head?_cons,
            Option.getD_some]

theorem find_map_assoc (wits : List String) (g : String → List (List Tok))
    (w : String) (hw : w ∈ wits) :
    ((wits.map (fun w' => (w', g w'))).find? (fun p => p.1 = w)).map (·.2) =
      some (g w) := by
  induction wits with
  | nil => simp at hw
  | cons w' rest ih =>
    by_cases h : w' = w
    · subst h
      simp [List.find?]
    · have hwrest : w ∈ rest := by
        rcases List.mem_cons.mp hw with h' | h'
        · exact absurd h'.symm h
        · exact h'
      rw [List.map_cons]
      have : List.find? (fun p => p.1 = w) ((w', g w') :: rest.map (fun w'' => (w'', g w''))) =
          List.find? (fun p => p.1 = w) (rest.map (fun w'' => (w'', g w''))) := by
        simp [List.find?, h]
      rw [this]
      exact ih hwrest

theorem list_get?_eq_getD {α : Type} (l : List α) (i : Nat) (dflt : α)
    (h : i < l.length) : l.get? i = some (l.getD i dflt) := by
  induction l generalizing i with
  | nil => simp at h
  | cons x xs ih =>
    cases i with
    | zero => rfl
    | succ n => exact ih n (by simpa using h)

/-- When every witness's lookup succeeds and its segment list is long
enough, the grouping loop computes the pure fold `gStep`. -/
theorem groupWitnesses_eq_foldl (allWits : List String)
    (wb : String → List Tok) (i : Nat) (ws : List String)
    (st : List (List Tok) × List (String × List String))
    (hsub : ∀ w ∈ ws, w ∈ allWits)
    (hlen : ∀ w ∈ ws, i < (segmentCE (wb w)).length) :
    groupWitnesses (allWits.map (fun w => (w, segmentCE (wb w)))) i ws st =
      some (ws.foldl (gStep (fun w => (segmentCE (wb w)).getD i [])) st) := by
  induction ws generalizing st with
  | nil => rfl
  | cons w rest ih =>
    rw [groupWitnesses]
    simp only [find_map_assoc allWits (fun w' => segmentCE (wb w')) w (hsub w (by simp)),
      Option.getD_some, list_get?_eq_getD _ i [] (hlen w (by simp)),
      Option.bind_eq_bind, Option.some_bind]
    rw [List.foldl_cons]
    exact (ih _ (fun w' hw' => hsub w' (by simp [hw']))
      (fun w' hw' => hlen w' (by simp [hw']))).trans (by rw [gStep])

/-- The per-index contribution of `update_boundaries` coincides with the
specification-side `claimContribution`. -/
theorem segContribution_eq_claim (lemSeg : List Tok) (wits : List String)
    (segOf : String → List Tok) :
    segContribution lemSeg (wits.foldl (gStep segOf) ([], [])) =
      claimContribution lemSeg wits segOf := by
  obtain ⟨h2, h1⟩ := gFold_spec segOf wits
  set ser := fun w => serializeSeg (segOf w) with hser
  set keys := firstDedup (wits.map ser) with hkeys
  rw [segContribution, claimContribution, h2, h1, List.length_map]
  by_cases hone : keys.length = 1
  · rw [if_pos hone, if_pos hone]
  · rw [if_neg hone, if_neg hone, List.map_map]
    refine congrArg (fun r => [BodyElem.app
      { attrN := none, attrType := none, lems := [⟨none, lemSeg⟩], rdgs := r }]) ?_
    apply List.map_congr_left
    intro s hs
    have hex : ∃ w' ∈ wits, ser w' = s := by
      have := (mem_firstDedup (wits.map ser) s).mp (hkeys ▸ hs)
      simpa [List.mem_map] using this
    obtain ⟨w', hw', hsw⟩ := hex
    have hmemf : w' ∈ wits.filter (fun w => ser w = s) :=
      List.mem_filter.mpr ⟨hw', by simp [hsw]⟩
    obtain ⟨w0, hw0⟩ : ∃ w0, (wits.filter (fun w => ser w = s)).head? = some w0 := by
      cases hf : (wits.filter (fun w => ser w = s)).head? with
      | none =>
        rw [List.head?_eq_none_iff] at hf
        rw [hf] at hmemf
        exact absurd hmemf (List.not_mem_nil w')
      | some w0 => exact ⟨w0, rfl⟩
    have hw0mem : w0 ∈ wits.filter (fun w => ser w = s) := by
      cases hfl : wits.filter (fun w => ser w = s) with
      | nil => rw [hfl] at hw0; simp at hw0
      | cons a rest =>
        rw [hfl] at hw0
        simp only [List.head?_cons, Option.some_inj] at hw0
        rw [← hw0]
        exact List.mem_cons_self a rest
    have hserw0 : ser w0 = s := by
      have := (List.mem_filter.mp hw0mem).2
      simpa using this
    simp only [Function.comp, hw0, Option.getD_some]
    have hfind : assocFind
        (keys.map (fun s' => (s', wits.filter (fun w => ser w = s')))) (ser w0) =
        some (wits.filter (fun w => ser w = ser w0)) := by
      rw [assocFind_map_val, if_pos (by rw [hserw0]; exact hkeys ▸ hs)]
    rw [show serializeSeg (segOf w0) = ser w0 from rfl, hfind, hserw0]
    simp

/-- C3: under the well-formedness conditions the source assumes (all
witness ids present, every apparatus has a lemma reading, every witness
projection succeeds and has at least as many segments as the lemma
projection), `update_boundaries` rebuilds the body segment index by
segment index exactly as the specification describes: the lemma
segment's content where the witnesses form a single serialization
group, and otherwise an apparatus with a `<lem/>` holding the lemma
segment's content followed by one `<rdg/>` per group in first-discovery
order, each listing its group's witness references in witness-list
order. -/
theorem c3_update_boundaries_grouping (d : CollDoc) (wits : List String)
    (lemmaBody : List Tok) (wb : String → List Tok)
    (hwits : d.listWit.mapM id = some wits)
    (hlem : get_lemma_xml d = some lemmaBody)
    (hwb : ∀ w ∈ wits, get_witness_xml d w = some (wb w))
    (hlen : ∀ w ∈ wits, (segmentCE lemmaBody).length ≤ (segmentCE (wb w)).length) :
    update_boundaries d = some
      (((List.range (segmentCE lemmaBody).length).map (fun i =>
        claimContribution ((segmentCE lemmaBody).getD i []) wits
          (fun w => (segmentCE (wb w)).getD i []))).flatten) := by
  have hpair : ∀ w ∈ wits,
      (get_witness_xml d w).bind
        (fun wbv => (pure (w, segmentCE wbv) : Option (String × List (List Tok)))) =
        some (w, segmentCE (wb w)) := by
    intro w hw
    rw [hwb w hw]
    rfl
  have hcontrib : ∀ i ∈ List.range (segmentCE lemmaBody).length,
      (groupWitnesses (wits.map (fun w => (w, segmentCE (wb w)))) i wits ([], [])).bind
        (fun st =>
          (pure (segContribution ((segmentCE lemmaBody).getD i []) st) :
            Option (List BodyElem))) =
        some (claimContribution ((segmentCE lemmaBody).getD i []) wits
          (fun w => (segmentCE (wb w)).getD i [])) := by
    intro i hi
    rw [groupWitnesses_eq_foldl wits wb i wits ([], []) (fun w hw => hw)
      (fun w hw => lt_of_lt_of_le (List.mem_range.mp hi) (hlen w hw))]
    simp only [Option.some_bind]
    rw [show (pure (segContribution ((segmentCE lemmaBody).getD i [])
        (wits.foldl (gStep (fun w => (segmentCE (wb w)).getD i [])) ([], []))) :
          Option (List BodyElem)) =
      some (segContribution ((segmentCE lemmaBody).getD i [])
        (wits.foldl (gStep (fun w => (segmentCE (wb w)).getD i [])) ([], []))) from rfl,
      segContribution_eq_claim]
  rw [update_boundaries, hwits, hlem]
  simp only [Option.bind_eq_bind, Option.some_bind]
  rw [mapM_eq_some_of_forall _ (fun w => (w, segmentCE (wb w))) wits hpair]
  simp only [Option.bind_eq_bind, Option.some_bind]
  rw [mapM_eq_some_of_forall _
    (fun i => claimContribution ((segmentCE lemmaBody).getD i []) wits
      (fun w => (segmentCE (wb w)).getD i []))
    (List.range (segmentCE lemmaBody).length) hcontrib]
  simp only [Option.bind_eq_bind, Option.some_bind]
  rfl

/-- A word token with the given text. -/
def c3W (s : String) : Tok := ⟨"w", none, none, none, some s⟩

/-- Three witnesses, of which exactly `C` differs at the sole segment. -/
def c3Doc : CollDoc :=
  { listWit := [some "A", some "B", some "C"]
    body :=
      [ .tok (c3W "shared")
      , .app { attrN := none, attrType := none
               lems := [⟨none, [c3W "X"]⟩]
               rdgs := [⟨some "#A #B", [c3W "X"]⟩, ⟨some "#C", [c3W "Y"]⟩] } ] }

/-- The body of each witness's projection of `c3Doc`. -/
def c3Wb (w : String) : List Tok :=
  if w = "C" then [c3W "shared", c3W "Y"] else [c3W "shared", c3W "X"]

theorem c3_update_boundaries_grouping_witness :
    (update_boundaries c3Doc = some
      (((List.range (segmentCE [c3W "shared", c3W "X"]).length).map (fun i =>
        claimContribution ((segmentCE [c3W "shared", c3W "X"]).getD i []) ["A", "B", "C"]
          (fun w => (segmentCE (c3Wb w)).getD i []))).flatten)) ∧
    update_boundaries c3Doc = some
      [ .app { attrN := none, attrType := none
               lems := [⟨none, [c3W "shared", c3W "X"]⟩]
               rdgs := [⟨some "#A #B", [c3W "shared", c3W "X"]⟩,
                        ⟨some "#C", [c3W "shared", c3W "Y"]⟩] } ] :=
  ⟨c3_update_boundaries_grouping c3Doc ["A", "B", "C"] [c3W "shared", c3W "X"] c3Wb
      rfl rfl (by decide) (by decide),
    by decide⟩

/-! ### C9: validate and the in-bounds segment access of `update_boundaries` -/

theorem countSegMarkers_append (a b : List Tok) :
    countSegMarkers (a ++ b) = countSegMarkers a + countSegMarkers b := by
  rw [countSegMarkers, countSegMarkers, countSegMarkers, List.filter_append,
    List.length_append]

theorem segmentCE_foldl_len (b : List Tok) (acc : List (List Tok) × List Tok) :
    ((b.foldl (fun (acc : List (List Tok) × List Tok) child =>
      if child.isSegMarker then (acc.1 ++ [acc.2], [])
      else (acc.1, acc.2 ++ [child])) acc).1).length =
      acc.1.length + countSegMarkers b := by
  induction b generalizing acc with
  | nil => simp [countSegMarkers]
  | cons t rest ih =>
    rw [List.foldl_cons]
    by_cases hm : t.isSegMarker
    · rw [if_pos hm, ih]
      simp [countSegMarkers, List.filter_cons, hm]
      omega
    · rw [if_neg hm, ih]
      simp [countSegMarkers, List.filter_cons, hm]

/-- The number of segments produced by the collation editor's `segment`
is the number of segment-division markers plus one. -/
theorem segmentCE_length (b : List Tok) :
    (segmentCE b).length = countSegMarkers b + 1 := by
  rw [segmentCE]
  simp only [List.length_append, List.length_cons, List.length_nil]
  rw [segmentCE_foldl_len b ([], [])]
  simp

theorem mem_apps_iff (d : CollDoc) (a : App) :
    a ∈ d.apps ↔ BodyElem.app a ∈ d.body := by
  rw [CollDoc.apps, List.mem_filterMap]
  constructor
  · rintro ⟨e, he, hea⟩
    cases e with
    | tok t => simp at hea
    | app a' => simp only [Option.some_inj] at hea; exact hea ▸ he
  · intro h
    exact ⟨BodyElem.app a, h, rfl⟩

theorem validate_apps_spec (l : List App) (rs : List (Bool × List String))
    (h : l.mapM validateApp = some rs) (hall : rs.all (·.1) = true) :
    ∀ a ∈ l, ∃ lem, a.lems.head? = some lem ∧
      ∀ r ∈ a.rdgs, countSegMarkers r.content = countSegMarkers lem.content := by
  induction l generalizing rs with
  | nil => intro a ha; simp at ha
  | cons a0 rest ih =>
    rw [List.mapM_cons] at h
    cases hfa : validateApp a0 with
    | none => rw [hfa] at h; simp at h
    | some b =>
      rw [hfa] at h
      cases hrest : rest.mapM validateApp with
      | none => rw [hrest] at h; simp at h
      | some bs =>
        rw [hrest] at h
        simp only [Option.bind_eq_bind, Option.some_bind, Option.pure_def,
          Option.some_inj] at h
        subst h
        rw [List.all_cons, Bool.and_eq_true] at hall
        intro a ha
        rcases List.mem_cons.mp ha with rfl | hmem
        · -- the head apparatus
          rw [validateApp] at hfa
          cases hlem : a.lems.head? with
          | none => rw [hlem] at hfa; simp at hfa
          | some lem =>
            rw [hlem] at hfa
            simp only [Option.bind_eq_bind, Option.some_bind, Option.pure_def,
              Option.some_inj] at hfa
            refine ⟨lem, rfl, ?_⟩
            have hfst := hall.1
            rw [← hfa] at hfst
            simp only [List.isEmpty_iff, List.map_eq_nil_iff,
              List.filter_eq_nil_iff, decide_eq_true_eq] at hfst
            intro r hr
            by_contra hne
            exact hfst r hr hne
        · exact ih bs hrest hall.2 a hmem

/-- What `validate` returning `True` guarantees about every apparatus. -/
theorem validate_true_spec (d : CollDoc) (msgs : List String)
    (hv : validate d = some (true, msgs)) :
    ∀ a ∈ d.apps, ∃ lem, a.lems.head? = some lem ∧
      ∀ r ∈ a.rdgs, countSegMarkers r.content = countSegMarkers lem.content := by
  rw [validate] at hv
  cases hm : d.apps.mapM validateApp with
  | none => rw [hm] at hv; simp at hv
  | some rs =>
    rw [hm] at hv
    simp only [Option.bind_eq_bind, Option.some_bind, Option.pure_def,
      Option.some_inj, Prod.mk.injEq] at hv
    exact validate_apps_spec d.apps rs hm hv.1

/-- When every reading has a `wit` attribute and some reading contains
the reference, the scan stops at a reading of the apparatus. -/
theorem selectWitRdg_mem (ref : String) (rdgs : List Reading)
    (hw : ∀ r ∈ rdgs, r.wit ≠ none)
    (hex : ∃ r ∈ rdgs, ∃ w, r.wit = some w ∧ ref ∈ pySplitWs w) :
    ∃ r ∈ rdgs, selectWitRdg ref rdgs = some r.content := by
  induction rdgs with
  | nil => simp at hex
  | cons r rs ih =>
    cases hwit : r.wit with
    | none => exact absurd hwit (hw r (by simp))
    | some w =>
      by_cases hm : ref ∈ pySplitWs w
      · exact ⟨r, by simp, by simp [selectWitRdg, hwit, hm]⟩
      · have hex' : ∃ r' ∈ rs, ∃ w', r'.wit = some w' ∧ ref ∈ pySplitWs w' := by
          obtain ⟨r', hr', w', hw', hm'⟩ := hex
          rcases List.mem_cons.mp hr' with rfl | hmem
          · rw [hwit] at hw'
            simp only [Option.some_inj] at hw'
            exact absurd (hw' ▸ hm') hm
          · exact ⟨r', hmem, w', hw', hm'⟩
        obtain ⟨r'', hr'', hsel⟩ := ih (fun x hx => hw x (by simp [hx])) hex'
        exact ⟨r'', by simp [hr''], by simp [selectWitRdg, hwit, hm, hsel]⟩

/-- Both projections succeed and agree on segment-marker counts,
provided every apparatus has matching counts, `wit` attributes
everywhere, and contains the witness in some reading. -/
theorem proj_counts (body : List BodyElem) (ref : String)
    (happ : ∀ a, BodyElem.app a ∈ body →
      (∃ lem, a.lems.head? = some lem ∧
        ∀ r ∈ a.rdgs, countSegMarkers r.content = countSegMarkers lem.content) ∧
      (∀ r ∈ a.rdgs, r.wit ≠ none) ∧
      (∃ r ∈ a.rdgs, ∃ w, r.wit = some w ∧ ref ∈ pySplitWs w)) :
    ∃ lb wbv, flatProj lemPart body = some lb ∧ flatProj (witPart ref) body = some wbv ∧
      countSegMarkers lb = countSegMarkers wbv := by
  induction body with
  | nil => exact ⟨[], [], rfl, rfl, rfl⟩
  | cons e rest ih =>
    obtain ⟨lb, wbv, hlb, hwbv, hcount⟩ :=
      ih (fun a ha => happ a (by simp [ha]))
    cases e with
    | tok t =>
      refine ⟨t :: lb, t :: wbv, ?_, ?_, ?_⟩
      · rw [flatProj_cons, lemPart, hlb]; rfl
      · rw [flatProj_cons, witPart, hwbv]; rfl
      · rw [show t :: lb = [t] ++ lb from rfl, show t :: wbv = [t] ++ wbv from rfl,
          countSegMarkers_append, countSegMarkers_append, hcount]
    | app a =>
      obtain ⟨⟨lem, hlem, hcnt⟩, hwattr, hcov⟩ := happ a (by simp)
      obtain ⟨r, hr, hsel⟩ := selectWitRdg_mem ref a.rdgs hwattr hcov
      refine ⟨lem.content ++ lb, r.content ++ wbv, ?_, ?_, ?_⟩
      · rw [flatProj_cons, lemPart, hlem, hlb]; rfl
      · rw [flatProj_cons, witPart, hsel, hwbv]; rfl
      · rw [countSegMarkers_append, countSegMarkers_append, hcount, hcnt r hr]

/-- The `c3W`-style segment-division marker token. -/
def c9Marker : Tok := ⟨"divGen", some "seg", none, none, none⟩

/-- C9 counterexample: `validate` returns `True` on `c9Doc` (the one
reading has as many markers as the lemma), yet witness `B` is contained
in no reading of the apparatus, so its projection has one segment while
the lemma projection has two: the claimed count equality fails, and the
indexed access in `update_boundaries` would be out of bounds. -/
theorem c9_validate_not_sufficient :
    validate ⟨[some "A", some "B"],
      [.app { attrN := none, attrType := none
              lems := [⟨none, [c9Marker]⟩]
              rdgs := [⟨some "#A", [c9Marker]⟩] }]⟩ = some (true, []) ∧
    get_lemma_xml ⟨[some "A", some "B"],
      [.app { attrN := none, attrType := none
              lems := [⟨none, [c9Marker]⟩]
              rdgs := [⟨some "#A", [c9Marker]⟩] }]⟩ = some [c9Marker] ∧
    get_witness_xml ⟨[some "A", some "B"],
      [.app { attrN := none, attrType := none
              lems := [⟨none, [c9Marker]⟩]
              rdgs := [⟨some "#A", [c9Marker]⟩] }]⟩ "B" = some [] ∧
    (segmentCE ([] : List Tok)).length ≠ (segmentCE [c9Marker]).length := by
  refine ⟨by decide, by decide, by decide, by decide⟩

/-- C9 amended: when `validate` returns `True` and, additionally, every
reading carries a `wit` attribute and every witness is contained in some
reading of every apparatus, the witness's segmented projection has
exactly as many segments as the segmented lemma projection, so the
indexed segment access of `update_boundaries` is in bounds. -/
theorem c9_counts_align (d : CollDoc) (msgs : List String) (wit : String)
    (hv : validate d = some (true, msgs))
    (hwattr : ∀ a ∈ d.apps, ∀ r ∈ a.rdgs, r.wit ≠ none)
    (hcov : ∀ a ∈ d.apps, ∃ r ∈ a.rdgs, ∃ w, r.wit = some w ∧
      ("#" ++ wit) ∈ pySplitWs w) :
    ∃ lb wbv, get_lemma_xml d = some lb ∧ get_witness_xml d wit = some wbv ∧
      (segmentCE wbv).length = (segmentCE lb).length := by
  have hspec := validate_true_spec d msgs hv
  obtain ⟨lb, wbv, hlb, hwbv, hcount⟩ := proj_counts d.body ("#" ++ wit)
    (fun a ha =>
      ⟨hspec a ((mem_apps_iff d a).mpr ha),
       hwattr a ((mem_apps_iff d a).mpr ha),
       hcov a ((mem_apps_iff d a).mpr ha)⟩)
  exact ⟨lb, wbv, hlb, hwbv, by rw [segmentCE_length, segmentCE_length, hcount]⟩

/-- A document on which `validate` holds and both witnesses appear in
some reading of the apparatus. -/
def c9Doc : CollDoc :=
  { listWit := [some "A", some "B"]
    body :=
      [ .app { attrN := none, attrType := none
               lems := [⟨none, [c9Marker]⟩]
               rdgs := [⟨some "#A", [c9Marker]⟩, ⟨some "#B", [c9Marker]⟩] } ] }

/-- All hypotheses of the amended C9 theorem hold at a concrete
document, and the segment counts align there. -/
theorem c9_counts_align_witness :
    ∃ lb wbv, get_lemma_xml c9Doc = some lb ∧ get_witness_xml c9Doc "B" = some wbv ∧
      (segmentCE wbv).length = (segmentCE lb).length :=
  c9_counts_align c9Doc [] "B" (by decide) (by decide) (by decide)

/-! ## The collator's coverage-enforcement pass (`tei_collator.collate`)

The first half of `collate` assembles `collation_xml` from the output of
the external CollateX engine: a flat stream of `<milestone/>` tokens and
`<app/>` elements whose children are `<rdg/>` readings (no `<lem/>` at
this stage).  The embedded part is the second half (the loop adding
empty readings for omitted coverage), taking the assembled stream as
input together with the collator's witness data. -/

/-- An apparatus as produced by the alignment engine: `<rdg/>` children
only. -/
structure CApp where
  rdgs : List Reading
deriving DecidableEq, Repr

/-- A child of the assembled collation. -/
inductive CollationElem where
  | tok (t : Tok)
  | app (a : CApp)
deriving DecidableEq, Repr

/-- Is this a textual-division milestone at the collation's grouping
level (with a `unit` among level/incipit/explicit and an `n`)? -/
def isDivMilestone (level : String) (t : Tok) : Bool :=
  t.tag == "milestone" &&
    (match t.unit with
     | none => false
     | some u => u == level || u == "incipit" || u == "explicit") &&
    t.n.isSome

/-- `self.tokens_by_witness[witness]`, as the list of division indices
at which the witness is extant (`none` models the `KeyError`). -/
def witnessExtant (tbw : List (String × List String)) (w : String) :
    Option (List String) :=
  (tbw.find? (fun p => p.1 = w)).map (·.2)

/-- The `for witness in self.witnesses` loop populating
`extant_witnesses` at a division. -/
def computeExtant (tbw : List (String × List String)) (divN : String) :
    List String → Option (List String)
  | [] => some []
  | w :: rest => do
    let extantDivs ← witnessExtant tbw w
    let tail ← computeExtant tbw divN rest
    pure (if divN ∈ extantDivs then w :: tail else tail)

/-- The `for wit_ref in rdg.get('wit').split()` loop: each reference's
witness is removed from the uncovered set; removing an absent witness
raises `KeyError` (`none`). -/
def removeRefs (uncovered : List String) : List String → Option (List String)
  | [] => some uncovered
  | ref :: rest =>
    let w := stripHash ref
    if w ∈ uncovered then removeRefs (uncovered.erase w) rest else none

/-- The `for rdg in child.xpath('.//tei:rdg')` loop: a reading with no
`wit` attribute makes `rdg.get('wit').split()` raise (`none`). -/
def removeRdgRefs (uncovered : List String) : List Reading → Option (List String)
  | [] => some uncovered
  | r :: rs => do
    let wstr ← r.wit
    let unc ← removeRefs uncovered (pySplitWs wstr)
    removeRdgRefs unc rs

/-- The coverage-enforcement loop of `tei_collator.collate` (its second
half): track the extant witnesses at each division milestone and, at
each apparatus, add an empty reading carrying the uncovered extant
witnesses — first when the lemma witness supports the omission
(`child[0].addprevious`, failing on a childless apparatus), last
otherwise. -/
def enforceCoverage (level lemWit : String) (witnesses : List String)
    (tbw : List (String × List String)) :
    List String → List CollationElem → Option (List CollationElem)
  | _, [] => some []
  | extant, .tok t :: rest =>
    if isDivMilestone level t then do
      let extant' ← computeExtant tbw (t.n.getD "") witnesses
      let tail ← enforceCoverage level lemWit witnesses tbw extant' rest
      pure (.tok t :: tail)
    else do
      let tail ← enforceCoverage level lemWit witnesses tbw extant rest
      pure (.tok t :: tail)
  | extant, .app a :: rest => do
    let unc ← removeRdgRefs (firstDedup extant) a.rdgs
    let a' ←
      if unc.isEmpty then some a
      else
        let omitWits := witnesses.filter (fun w => w ∈ unc)
        let omitRefs := omitWits.map (fun w => "#" ++ w)
        let omitRdg : Reading := ⟨some (" ".intercalate omitRefs), []⟩
        if ("#" ++ lemWit) ∈ omitRefs then
          match a.rdgs with
          | [] => none
          | r :: rs => some ⟨omitRdg :: r :: rs⟩
        else some ⟨a.rdgs ++ [omitRdg]⟩
    let tail ← enforceCoverage level lemWit witnesses tbw extant rest
    pure (.app a' :: tail)

/-- The witnesses referenced by the readings of an apparatus (its
`wit` attributes whitespace-split, `#` markers removed). -/
def refsOfApp (a : CApp) : List String :=
  (a.rdgs.map (fun r => (pySplitWs (r.wit.getD "")).map stripHash)).flatten

/-- Pair every apparatus of a collation stream with the extant-witness
list in force at its position. -/
def appsWithExtant (level : String) (witnesses : List String)
    (tbw : List (String × List String)) :
    List String → List CollationElem → List (List String × CApp)
  | _, [] => []
  | extant, .tok t :: rest =>
    if isDivMilestone level t then
      match computeExtant tbw (t.n.getD "") witnesses with
      | some e' => appsWithExtant level witnesses tbw e' rest
      | none => appsWithExtant level witnesses tbw extant rest
    else appsWithExtant level witnesses tbw extant rest
  | extant, .app a :: rest => (extant, a) :: appsWithExtant level witnesses tbw extant rest

theorem computeExtant_subset (tbw : List (String × List String)) (divN : String)
    (ws e : List String) (h : computeExtant tbw divN ws = some e) :
    ∀ w ∈ e, w ∈ ws := by
  induction ws generalizing e with
  | nil =>
    rw [computeExtant] at h
    simp only [Option.some_inj] at h
    subst h
    intro w hw
    simp at hw
  | cons w0 rest ih =>
    rw [computeExtant] at h
    cases hwe : witnessExtant tbw w0 with
    | none => rw [hwe] at h; simp at h
    | some divs =>
      rw [hwe] at h
      cases htail : computeExtant tbw divN rest with
      | none => rw [htail] at h; simp at h
      | some tl =>
        rw [htail] at h
        simp only [Option.bind_eq_bind, Option.some_bind, Option.pure_def,
          Option.some_inj] at h
        subst h
        intro w hw
        by_cases hd : divN ∈ divs
        · rw [if_pos hd] at hw
          rcases List.mem_cons.mp hw with rfl | hmem
          · simp
          · simp [ih tl htail w hmem]
        · rw [if_neg hd] at hw
          simp [ih tl htail w hw]

theorem removeRefs_spec (refs : List String) (u u' : List String) (hnd : u.Nodup)
    (h : removeRefs u refs = some u') :
    u'.Nodup ∧ (∀ w ∈ u', w ∈ u) ∧
    (∀ w, w ∈ u ↔ (w ∈ u' ∨ w ∈ refs.map stripHash)) ∧
    (∀ w ∈ refs.map stripHash, w ∉ u') := by
  induction refs generalizing u with
  | nil =>
    rw [removeRefs] at h
    simp only [Option.some_inj] at h
    subst h
    exact ⟨hnd, fun w hw => hw, fun w => by simp, by simp⟩
  | cons ref rest ih =>
    rw [removeRefs] at h
    by_cases hmem : stripHash ref ∈ u
    · rw [if_pos hmem] at h
      obtain ⟨hnd', hsub, hiff, hnotin⟩ := ih (u.erase (stripHash ref)) (hnd.erase _) h
      have herase : ∀ w, w ∈ u.erase (stripHash ref) ↔ w ≠ stripHash ref ∧ w ∈ u :=
        fun w => hnd.mem_erase_iff
      refine ⟨hnd', ?_, ?_, ?_⟩
      · intro w hw
        exact ((herase w).mp (hsub w hw)).2
      · intro w
        constructor
        · intro hwu
          by_cases hws : w = stripHash ref
          · exact Or.inr (by simp [hws])
          · rcases (hiff w).mp ((herase w).mpr ⟨hws, hwu⟩) with h' | h'
            · exact Or.inl h'
            · exact Or.inr (by simp [h'])
        · rintro (h' | h')
          · exact ((herase w).mp (hsub w h')).2
          · rcases List.mem_map.mp h' with ⟨r, hr, rfl⟩
            rcases List.mem_cons.mp hr with rfl | hrr
            · exact hmem
            · have := (hiff (stripHash r)).mpr (Or.inr (List.mem_map.mpr ⟨r, hrr, rfl⟩))
              exact ((herase _).mp this).2
      · intro w hw
        rcases List.mem_map.mp hw with ⟨r, hr, rfl⟩
        rcases List.mem_cons.mp hr with rfl | hrr
        · intro hin
          exact absurd ((herase _).mp (hsub _ hin)).1 (by simp)
        · exact hnotin (stripHash r) (List.mem_map.mpr ⟨r, hrr, rfl⟩)
    · rw [if_neg hmem] at h
      simp at h

theorem removeRdgRefs_spec (rdgs : List Reading) (u u' : List String)
    (hnd : u.Nodup) (h : removeRdgRefs u rdgs = some u') :
    u'.Nodup ∧ (∀ w ∈ u', w ∈ u) ∧
    (∀ w, w ∈ u ↔ (w ∈ u' ∨ w ∈ refsOfApp ⟨rdgs⟩)) ∧
    (∀ w ∈ refsOfApp ⟨rdgs⟩, w ∉ u') := by
  induction rdgs generalizing u with
  | nil =>
    rw [removeRdgRefs] at h
    simp only [Option.some_inj] at h
    subst h
    exact ⟨hnd, fun w hw => hw, fun w => by simp [refsOfApp], by simp [refsOfApp]⟩
  | cons r rs ih =>
    rw [removeRdgRefs] at h
    cases hwit : r.wit with
    | none => rw [hwit] at h; simp at h
    | some wstr =>
      rw [hwit] at h
      simp only [Option.bind_eq_bind, Option.some_bind] at h
      cases hrr : removeRefs u (pySplitWs wstr) with
      | none => rw [hrr] at h; simp at h
      | some u1 =>
        rw [hrr] at h
        simp only [Option.bind_eq_bind, Option.some_bind] at h
        obtain ⟨hnd1, hsub1, hiff1, hnot1⟩ :=
          removeRefs_spec (pySplitWs wstr) u u1 hnd hrr
        obtain ⟨hnd', hsub', hiff', hnot'⟩ := ih u1 hnd1 h
        have hrefs : refsOfApp ⟨r :: rs⟩ =
            (pySplitWs wstr).map stripHash ++ refsOfApp ⟨rs⟩ := by
          simp [refsOfApp, hwit]
        refine ⟨hnd', fun w hw => hsub1 w (hsub' w hw), ?_, ?_⟩
        · intro w
          rw [hrefs, List.mem_append]
          constructor
          · intro hwu
            rcases (hiff1 w).mp hwu with h1 | h1
            · rcases (hiff' w).mp h1 with h2 | h2
              · exact Or.inl h2
              · exact Or.inr (Or.inr h2)
            · exact Or.inr (Or.inl h1)
          · rintro (h1 | h1 | h1)
            · exact hsub1 w (hsub' w h1)
            · exact (hiff1 w).mpr (Or.inr h1)
            · exact hsub1 w ((hiff' w).mpr (Or.inr h1))
        · intro w hw
          rw [hrefs, List.mem_append] at hw
          rcases hw with h1 | h1
          · intro hin
            exact hnot1 w h1 (hsub' w hin)
          · exact hnot' w h1

/-! ### Joining and re-splitting witness reference lists -/

theorem string_foldl_append (as : List String) (acc : String) :
    as.foldl (· ++ ·) acc = acc ++ String.join as := by
  induction as generalizing acc with
  | nil => exact (String.append_empty acc).symm
  | cons a rest ih =>
    show rest.foldl (· ++ ·) (acc ++ a) = acc ++ String.join (a :: rest)
    rw [ih (acc ++ a), String.append_assoc]
    congr 1
    have hj : String.join (a :: rest) = rest.foldl (· ++ ·) a := by
      rw [String.join, List.foldl_cons, String.empty_append]
    rw [hj, ih a]

theorem string_join_cons (a : String) (rest : List String) :
    String.join (a :: rest) = a ++ String.join rest := by
  rw [String.join, List.foldl_cons, String.empty_append, string_foldl_append]

theorem intercalate_go_eq (s acc : String) (as : List String) :
    String.intercalate.go acc s as = acc ++ String.join (as.map (fun a => s ++ a)) := by
  induction as generalizing acc with
  | nil =>
    show acc = acc ++ String.join []
    exact (String.append_empty acc).symm
  | cons a rest ih =>
    rw [String.intercalate.go, ih, List.map_cons, string_join_cons]
    simp only [String.append_assoc]

theorem intercalate_cons (s a : String) (as : List String) :
    String.intercalate s (a :: as) = a ++ String.join (as.map (fun x => s ++ x)) := by
  rw [String.intercalate, intercalate_go_eq]

theorem wsSplit_ne_nil (cs : List Char) : wsSplit cs ≠ [] := by
  induction cs with
  | nil => simp [wsSplit]
  | cons c rest ih =>
    rw [wsSplit]
    by_cases hc : c.isWhitespace
    · simp [hc]
    · simp only [if_neg hc]
      cases h : wsSplit rest with
      | nil => exact absurd h ih
      | cons g gs => simp

theorem wsSplit_nonws_append (g cs : List Char) (hg : ∀ c ∈ g, ¬c.isWhitespace)
    (hd : List Char) (tl : List (List Char)) (hcs : wsSplit cs = hd :: tl) :
    wsSplit (g ++ cs) = (g ++ hd) :: tl := by
  induction g with
  | nil => simpa using hcs
  | cons c g' ih =>
    have hc : ¬c.isWhitespace := hg c (by simp)
    rw [List.cons_append, wsSplit,
      ih (fun c' hc' => hg c' (by simp [hc']))]
    simp [hc]

theorem pySplitWs_intercalate (rs : List String)
    (h : ∀ r ∈ rs, r ≠ "" ∧ ∀ c ∈ r.data, ¬c.isWhitespace) :
    pySplitWs (String.intercalate " " rs) = rs := by
  induction rs with
  | nil => rfl
  | cons r rest ih =>
    obtain ⟨hr, hrws⟩ := h r (by simp)
    cases rest with
    | nil =>
      rw [intercalate_cons, List.map_nil, String.join, List.foldl_nil,
        String.append_empty, pySplitWs]
      rw [show r.data = r.data ++ [] from (List.append_nil _).symm,
        wsSplit_nonws_append r.data [] hrws [] [] rfl]
      simp [hr]
    | cons r1 rest' =>
      have hstep : String.intercalate " " (r :: r1 :: rest') =
          r ++ " " ++ String.intercalate " " (r1 :: rest') := by
        rw [intercalate_cons, intercalate_cons, List.map_cons, string_join_cons,
          String.append_assoc, String.append_assoc]
      rw [hstep]
      have hrest := ih (fun x hx => h x (by simp [hx]))
      obtain ⟨hd, tl, hws⟩ : ∃ hd tl,
          wsSplit (String.intercalate " " (r1 :: rest')).data = hd :: tl := by
        cases hw : wsSplit (String.intercalate " " (r1 :: rest')).data with
        | nil => exact absurd hw (wsSplit_ne_nil _)
        | cons a b => exact ⟨a, b, rfl⟩
      have hdata : (r ++ " " ++ String.intercalate " " (r1 :: rest')).data =
          r.data ++ ' ' :: (String.intercalate " " (r1 :: rest')).data := by
        rw [String.data_append, String.data_append]
        simp
      have hspace : wsSplit (' ' :: (String.intercalate " " (r1 :: rest')).data) =
          [] :: hd :: tl := by
        rw [wsSplit, if_pos (by decide), hws]
      rw [pySplitWs, hdata,
        wsSplit_nonws_append r.data _ hrws [] (hd :: tl) hspace, List.append_nil]
      rw [pySplitWs, hws] at hrest
      rw [List.map_cons, List.filter_cons,
        if_pos (decide_eq_true (show (⟨r.data⟩ : String) ≠ "" from hr)), hrest]

theorem stripHash_hash (w : String) (h : ∀ c ∈ w.data, c ≠ '#') :
    stripHash ("#" ++ w) = w := by
  rw [stripHash]
  apply String.ext
  show (("#" ++ w).data.filter (fun c => c ≠ '#')) = w.data
  rw [String.data_append]
  show (('#' :: w.data).filter (fun c => c ≠ '#')) = w.data
  rw [List.filter_cons, if_neg (by simp)]
  exact List.filter_eq_self.mpr (fun c hc => by simpa using h c hc)

theorem hash_ref_wf (w : String) (_hne : w ≠ "")
    (hws : ∀ c ∈ w.data, ¬c.isWhitespace) :
    ("#" ++ w) ≠ "" ∧ ∀ c ∈ ("#" ++ w).data, ¬c.isWhitespace := by
  constructor
  · intro hcon
    rw [String.ext_iff, String.data_append] at hcon
    simp at hcon
  · intro c hc
    rw [String.data_append] at hc
    rcases List.mem_append.mp hc with h1 | h1
    · have : c = '#' := by simpa using h1
      subst this
      decide
    · exact hws c h1

/-- C7: whenever the coverage-enforcement pass of `collate` completes,
every apparatus of the resulting collation satisfies the coverage
invariant: the union of the witness references over all of its readings
equals the set of witnesses extant at its textual division (achieved by
inserting one empty reading carrying exactly the uncovered extant
witnesses, first when the lemma witness supports the omission and last
otherwise). -/
theorem c7_coverage_invariant (level lemWit : String) (witnesses : List String)
    (tbw : List (String × List String)) (extant0 : List String)
    (children out : List CollationElem)
    (hwf : ∀ w ∈ witnesses, w ≠ "" ∧ (∀ c ∈ w.data, ¬c.isWhitespace) ∧
      (∀ c ∈ w.data, c ≠ '#'))
    (hsub : ∀ w ∈ extant0, w ∈ witnesses)
    (h : enforceCoverage level lemWit witnesses tbw extant0 children = some out) :
    ∀ p ∈ appsWithExtant level witnesses tbw extant0 out,
      ∀ w, (w ∈ refsOfApp p.2 ↔ w ∈ p.1) := by
  induction children generalizing extant0 out with
  | nil =>
    rw [enforceCoverage] at h
    simp only [Option.some_inj] at h
    subst h
    intro p hp
    simp [appsWithExtant] at hp
  | cons child rest ih =>
    cases child with
    | tok t =>
      rw [enforceCoverage] at h
      by_cases hms : isDivMilestone level t
      · rw [if_pos hms] at h
        cases hce : computeExtant tbw (t.n.getD "") witnesses with
        | none => rw [hce] at h; simp at h
        | some e' =>
          rw [hce] at h
          simp only [Option.bind_eq_bind, Option.some_bind] at h
          cases htail : enforceCoverage level lemWit witnesses tbw e' rest with
          | none => rw [htail] at h; simp at h
          | some tail =>
            rw [htail] at h
            simp only [Option.some_bind, Option.pure_def, Option.some_inj] at h
            subst h
            intro p hp
            rw [appsWithExtant, if_pos hms, hce] at hp
            exact ih e' tail (computeExtant_subset tbw _ witnesses e' hce) htail p hp
      · rw [if_neg hms] at h
        cases htail : enforceCoverage level lemWit witnesses tbw extant0 rest with
        | none => rw [htail] at h; simp at h
        | some tail =>
          rw [htail] at h
          simp only [Option.bind_eq_bind, Option.some_bind, Option.pure_def,
            Option.some_inj] at h
          subst h
          intro p hp
          rw [appsWithExtant, if_neg hms] at hp
          exact ih extant0 tail hsub htail p hp
    | app a =>
      rw [enforceCoverage] at h
      cases hunc : removeRdgRefs (firstDedup extant0) a.rdgs with
      | none => rw [hunc] at h; simp at h
      | some unc =>
        rw [hunc] at h
        simp only [Option.bind_eq_bind, Option.some_bind] at h
        obtain ⟨hnd', hsubu, hiff, hnot⟩ :=
          removeRdgRefs_spec a.rdgs (firstDedup extant0) unc
            (firstDedup_nodup extant0) hunc
        have hU : ∀ w, w ∈ firstDedup extant0 ↔ w ∈ extant0 :=
          fun w => mem_firstDedup extant0 w
        have huncw : ∀ w ∈ unc, w ∈ witnesses :=
          fun w hw => hsub w ((hU w).mp (hsubu w hw))
        have homitwf : ∀ rr ∈ (witnesses.filter (fun w => w ∈ unc)).map
            (fun w => "#" ++ w), rr ≠ "" ∧ ∀ c ∈ rr.data, ¬c.isWhitespace := by
          intro rr hrr
          obtain ⟨w0, hw0, rfl⟩ := List.mem_map.mp hrr
          have hw0w : w0 ∈ witnesses := (List.mem_filter.mp hw0).1
          obtain ⟨h1, h2, _⟩ := hwf w0 hw0w
          exact hash_ref_wf w0 h1 h2
        have homit : (pySplitWs (String.intercalate " "
            ((witnesses.filter (fun w => w ∈ unc)).map (fun w => "#" ++ w)))).map
              stripHash = witnesses.filter (fun w => w ∈ unc) := by
          rw [pySplitWs_intercalate _ homitwf, List.map_map]
          have hcong : ∀ w0 ∈ witnesses.filter (fun w => w ∈ unc),
              (stripHash ∘ (fun w => "#" ++ w)) w0 = id w0 := by
            intro w0 hw0
            have hw0w : w0 ∈ witnesses := (List.mem_filter.mp hw0).1
            obtain ⟨_, _, h3⟩ := hwf w0 hw0w
            simpa using stripHash_hash w0 h3
          rw [List.map_congr_left hcong, List.map_id]
        have hmemomit : ∀ v, v ∈ (witnesses.filter (fun w => w ∈ unc)) ↔ v ∈ unc := by
          intro v
          rw [List.mem_filter]
          constructor
          · intro hv; simpa using hv.2
          · intro hv; exact ⟨huncw v hv, by simpa using hv⟩
        have hunion_unchanged : unc = [] → ∀ w, (w ∈ refsOfApp a ↔ w ∈ extant0) := by
          intro hemp w
          rw [← hU w, hiff w, hemp]
          simp
        have homitRefs : ∀ v, v ∈ (pySplitWs (String.intercalate " "
            ((witnesses.filter (fun w => w ∈ unc)).map (fun w => "#" ++ w)))).map
              stripHash ↔ v ∈ unc := by
          intro v
          rw [homit]
          exact hmemomit v
        have hunion_omit : ∀ rdgs' : List Reading,
            (rdgs' = ⟨some (String.intercalate " "
                ((witnesses.filter (fun w => w ∈ unc)).map (fun w => "#" ++ w))), []⟩
                  :: a.rdgs ∨
             rdgs' = a.rdgs ++ [⟨some (String.intercalate " "
                ((witnesses.filter (fun w => w ∈ unc)).map (fun w => "#" ++ w))), []⟩]) →
            ∀ w, (w ∈ refsOfApp ⟨rdgs'⟩ ↔ w ∈ extant0) := by
          rintro rdgs' (rfl | rfl) w
          · rw [refsOfApp, List.map_cons, List.flatten_cons]
            simp only [Option.getD_some]
            rw [List.mem_append]
            have h1 := homitRefs w
            rw [show (refsOfApp ⟨a.rdgs⟩) =
              (a.rdgs.map (fun r => (pySplitWs (r.wit.getD "")).map stripHash)).flatten
              from rfl] at hiff
            rw [← hU w, hiff w]
            constructor
            · rintro (hh | hh)
              · exact Or.inl (h1.mp hh)
              · exact Or.inr hh
            · rintro (hh | hh)
              · exact Or.inl (h1.mpr hh)
              · exact Or.inr hh
          · rw [refsOfApp, List.map_append, List.flatten_append]
            simp only [List.map_cons, List.map_nil, List.flatten_cons, List.flatten_nil,
              List.append_nil, Option.getD_some]
            rw [List.mem_append]
            have h1 := homitRefs w
            rw [show (refsOfApp ⟨a.rdgs⟩) =
              (a.rdgs.map (fun r => (pySplitWs (r.wit.getD "")).map stripHash)).flatten
              from rfl] at hiff
            rw [← hU w, hiff w]
            constructor
            · rintro (hh | hh)
              · exact Or.inr hh
              · exact Or.inl (h1.mp hh)
            · rintro (hh | hh)
              · exact Or.inr (h1.mpr hh)
              · exact Or.inl hh
        by_cases hL : unc.isEmpty
        · rw [if_pos hL] at h
          cases htail : enforceCoverage level lemWit witnesses tbw extant0 rest with
          | none => rw [htail] at h; simp at h
          | some tail =>
            rw [htail] at h
            simp only [Option.some_bind, Option.pure_def, Option.some_inj] at h
            subst h
            intro p hp
            rw [appsWithExtant, List.mem_cons] at hp
            rcases hp with rfl | hp
            · exact hunion_unchanged (List.isEmpty_iff.mp hL)
            · exact ih extant0 tail hsub htail p hp
        · rw [if_neg hL] at h
          by_cases hlem : ("#" ++ lemWit) ∈ (witnesses.filter (fun w => w ∈ unc)).map
              (fun w => "#" ++ w)
          · rw [if_pos hlem] at h
            cases hrdgs : a.rdgs with
            | nil => rw [hrdgs] at h; simp at h
            | cons r rs =>
              rw [hrdgs] at h
              simp only [Option.bind_eq_bind, Option.some_bind] at h
              cases htail : enforceCoverage level lemWit witnesses tbw extant0 rest with
              | none => rw [htail] at h; simp at h
              | some tail =>
                rw [htail] at h
                simp only [Option.some_bind, Option.pure_def, Option.some_inj] at h
                subst h
                intro p hp
                rw [appsWithExtant, List.mem_cons] at hp
                rcases hp with rfl | hp
                · exact hunion_omit _ (Or.inl (by rw [hrdgs])) 
                · exact ih extant0 tail hsub htail p hp
          · rw [if_neg hlem] at h
            cases htail : enforceCoverage level lemWit witnesses tbw extant0 rest with
            | none => rw [htail] at h; simp at h
            | some tail =>
              rw [htail] at h
              simp only [Option.some_bind, Option.pure_def, Option.some_inj] at h
              subst h
              intro p hp
              rw [appsWithExtant, List.mem_cons] at hp
              rcases hp with rfl | hp
              · exact hunion_omit _ (Or.inr rfl)
              · exact ih extant0 tail hsub htail p hp

/-- A one-division, two-witness collation in which witness `B` omits
the sole reading. -/
def c7Milestone : Tok := ⟨"milestone", none, some "1", some "verse", none⟩

def c7App : CApp := ⟨[⟨some "#L", [⟨"w", none, none, none, some "x"⟩]⟩]⟩

def c7Tbw : List (String × List String) := [("L", ["1"]), ("B", ["1"])]

def c7Out : List CollationElem :=
  [.tok c7Milestone,
   .app ⟨[⟨some "#L", [⟨"w", none, none, none, some "x"⟩]⟩, ⟨some "#B", []⟩]⟩]

theorem c7_coverage_invariant_witness :
    ("B" ∈ refsOfApp ⟨[⟨some "#L", [⟨"w", none, none, none, some "x"⟩]⟩,
        ⟨some "#B", []⟩]⟩ ↔ "B" ∈ ["L", "B"]) ∧
    ("C" ∈ refsOfApp ⟨[⟨some "#L", [⟨"w", none, none, none, some "x"⟩]⟩,
        ⟨some "#B", []⟩]⟩ ↔ "C" ∈ ["L", "B"]) :=
  ⟨c7_coverage_invariant "verse" "L" ["L", "B"] c7Tbw []
      [.tok c7Milestone, .app c7App] c7Out (by decide) (by decide) (by decide)
      (["L", "B"], ⟨[⟨some "#L", [⟨"w", none, none, none, some "x"⟩]⟩,
        ⟨some "#B", []⟩]⟩) (by decide) "B",
   c7_coverage_invariant "verse" "L" ["L", "B"] c7Tbw []
      [.tok c7Milestone, .app c7App] c7Out (by decide) (by decide) (by decide)
      (["L", "B"], ⟨[⟨some "#L", [⟨"w", none, none, none, some "x"⟩]⟩,
        ⟨some "#B", []⟩]⟩) (by decide) "C"⟩

/-! ## Normalizer text functions (`tei_normalizer`)

`tei_labeler.add_types` instantiates a `tei_normalizer` with all three
accent classes ignored and uses its `format_text` and `strip_plene`. -/

/-- `accentuatation_res['cantillation']`. -/
def cantillationChar (c : Char) : Bool :=
  (0x591 ≤ c.toNat && c.toNat ≤ 0x5AF) || c.toNat = 0x5BD ||
    (0x200C ≤ c.toNat && c.toNat ≤ 0x200D)

/-- `accentuatation_res['pointing']`. -/
def pointingChar (c : Char) : Bool :=
  (0x5B0 ≤ c.toNat && c.toNat ≤ 0x5BC) || c.toNat = 0x5BF ||
    (0x5C1 ≤ c.toNat && c.toNat ≤ 0x5C2) || c.toNat = 0x5C7

/-- `accentuatation_res['extraordinaire']`. -/
def extraordinaireChar (c : Char) : Bool :=
  0x5C4 ≤ c.toNat && c.toNat ≤ 0x5C5

/-- `letters_re` of `strip_plene`: the Hebrew letter block. -/
def hebrewLetterChar (c : Char) : Bool :=
  0x5D0 ≤ c.toNat && c.toNat ≤ 0x5EA

/-- `unicodedata.normalize('NFKD', ·)`, modelled as the identity: on the
code points this development evaluates on (ASCII, and decomposed Hebrew
base letters carrying at most one combining mark each), canonical
decomposition is the identity. -/
def nfkd (s : String) : String := s

/-- `unicodedata.normalize('NFC', ·)`, modelled as the identity: Hebrew
points are composition-excluded, so recomposition is the identity on the
same repertoire. -/
def nfc (s : String) : String := s

/-- One `re.sub(regex, '', s)` of `format_text` for an accent class. -/
def removeAccentClass (cls : String) (s : String) : String :=
  let pred : Char → Bool :=
    if cls = "cantillation" then cantillationChar
    else if cls = "pointing" then pointingChar
    else if cls = "extraordinaire" then extraordinaireChar
    else fun _ => false
  ⟨s.data.filter (fun c => !(pred c))⟩

/-- `tei_normalizer.format_text`: decompose, strip each ignored accent
class, recompose.  The three classes are disjoint character filters, so
the (unspecified) Python set iteration order is immaterial; a fixed
order is used. -/
def format_text (ignoredAccents : List String) (s : String) : String :=
  nfc (ignoredAccents.foldl (fun acc cls => removeAccentClass cls acc) (nfkd s))

/-- `format_text` of the fully-normalizing configuration used by
`add_types`. -/
def fullFormat (s : String) : String :=
  format_text ["cantillation", "pointing", "extraordinaire"] s

/-- The grouping phase of `strip_plene`: group each letter with its
pointing, flushing the queue at each space or letter; characters other
than spaces, Hebrew letters and pointing are skipped.  The final queue
is appended after the loop. -/
def pleneGroupLoop : List Char → String → List String
  | [], queue => [queue]
  | c :: rest, queue =>
    if c ≠ ' ' ∧ ¬hebrewLetterChar c ∧ ¬pointingChar c then pleneGroupLoop rest queue
    else if c = ' ' ∨ hebrewLetterChar c then
      queue :: pleneGroupLoop rest (String.singleton c)
    else pleneGroupLoop rest (queue.push c)

/-- One iteration of the replacement loop of `strip_plene` at index `i`
with the previous letter-with-pointing `prev`. -/
def pleneReplaceStep (arr : List String) (i : Nat) (prev : String) : List String :=
  let current := arr.getD i ""
  if current = " " then arr
  else if i = 0 ∨ prev = " " then arr
  else if i = arr.length - 1 ∨ arr.getD (i + 1) "" = " " then arr
  else if current = "א" then arr.set i ""
  else if current = "ו" ∧ prev = "א" ∧ i > 1 ∧ arr.getD (i - 2) "" ≠ " " then
    let arr1 := (arr.set i "").set (i - 1) ""
    if 'ֹ' ∈ (arr1.getD (i - 2) "").data then arr1
    else arr1.set (i - 2) ((arr1.getD (i - 2) "") ++ "ֹ")
  else if current = "וֹ" then
    (arr.set i "").set (i - 1) ((arr.getD (i - 1) "") ++ "ֹ")
  else if current = "וּ" then
    (arr.set i "").set (i - 1) ((arr.getD (i - 1) "") ++ "ֻ")
  else if current = "י" ∧
      ('ִ' ∈ prev.data ∨ 'ֵ' ∈ prev.data ∨ 'ֶ' ∈ prev.data) then
    arr.set i ""
  else if current = "יְ" ∧
      ('ִ' ∈ prev.data ∨ 'ֵ' ∈ prev.data ∨ 'ֶ' ∈ prev.data) then
    arr.set i ""
  else arr

/-- The replacement loop of `strip_plene` over all indices; `prev` is
updated to the value read at the current index before its mutation, as
in the source. -/
def pleneReplace (arr : List String) : List String :=
  ((List.range arr.length).foldl
    (fun (st : List String × String) i =>
      (pleneReplaceStep st.1 i st.2, st.1.getD i ""))
    (arr, "")).1

/-- `tei_normalizer.strip_plene`. -/
def strip_plene (s : String) : String :=
  let groups := (pleneGroupLoop (nfkd s).data "").tail
  nfc (String.join (pleneReplace groups))

/-! ## The labeler (`tei_labeler`) -/

/-- The full (namespaced) tag of a token element, which `add_types`
serializes when the element has no text. -/
def teiTagFull (tag : String) : String :=
  "{http://www.tei-c.org/ns/1.0}" ++ tag

/-- The serialization of one reading child: its text, or its tag when
it has none. -/
def serRdgTok (t : Tok) : String := t.text.getD (teiTagFull t.tag)

/-- The `' '.join(...)` serialization of a reading. -/
def serializeRdg (r : Reading) : String :=
  String.intercalate " " (r.content.map serRdgTok)

/-- The first-matching-rule chain of `tei_labeler.add_types`, applied to
the serialization of the first `<rdg/>` and of the remaining ones. -/
def classifyApp (primarySer : String) (variantSers : List String) : String :=
  if variantSers.all (fun v => fullFormat v = fullFormat primarySer) then "vocalic"
  else if variantSers.all (fun v =>
      fullFormat (strip_plene v) = fullFormat (strip_plene primarySer)) then "orthographic"
  else if variantSers.all (fun v =>
      pySetEq (pySplitWs (fullFormat v)) (pySplitWs (fullFormat primarySer))) then
    "transposition"
  else if (pySplitWs primarySer).length = 0 then
    if variantSers.all (fun v => (pySplitWs v).length ≠ 0) then "addition"
    else "substitution"
  else
    if variantSers.all (fun v => (pySplitWs v).length = 0) then "omission"
    else "substitution"

/-- `tei_labeler.add_types` on one body child: an apparatus with no
`<rdg/>` makes `app.xpath('.//tei:rdg')[0]` raise (`none`). -/
def addTypesElem : BodyElem → Option BodyElem
  | .tok t => some (.tok t)
  | .app a =>
    match a.rdgs with
    | [] => none
    | primary :: variants =>
      some (.app { a with attrType := some (classifyApp (serializeRdg primary)
        (variants.map serializeRdg)) })

/-- `tei_labeler.add_types`. -/
def add_types (body : List BodyElem) : Option (List BodyElem) :=
  body.mapM addTypesElem

/-- The traversal state of `add_indices`: the division hierarchy and the
current index dictionary (insertion-ordered). -/
structure LState where
  hierarchy : List String
  indices : List (String × String)
deriving DecidableEq, Repr

/-- String-valued dictionary lookup. -/
def dgetS (d : List (String × String)) (k : String) : Option String :=
  (d.find? (fun p => p.1 = k)).map (·.2)

/-- String-valued dictionary assignment. -/
def dsetS (d : List (String × String)) (k : String) (v : String) :
    List (String × String) :=
  match d with
  | [] => [(k, v)]
  | (k', v') :: rest => if k' = k then (k, v) :: rest else (k', v') :: dsetS rest k v

/-- Python `dict ==`: pointwise equality of the key-value maps. -/
def pyDictEq (d1 d2 : List (String × String)) : Bool :=
  d1.all (fun p => dgetS d2 p.1 = some p.2) && d2.all (fun p => dgetS d1 p.1 = some p.2)

/-- `tei_labeler.div_abbreviations`. -/
def div_abbreviations : List (String × String) :=
  [("book", "B"), ("incipit", "incipit"), ("explicit", "explicit"),
   ("chapter", "K"), ("verse", "V"), ("w", "U")]

/-- `self.div_abbreviations[div_type]` (`none` models the `KeyError`). -/
def divAbbrev (t : String) : Option String :=
  (div_abbreviations.find? (fun p => p.1 = t)).map (·.2)

/-- The first character index at which `sub` occurs in `hay`
(Python `in`/`str.index`). -/
def subIndex (hay sub : List Char) : Option Nat :=
  if sub.isPrefixOf hay then some 0
  else
    match hay with
    | [] => none
    | _ :: rest => (subIndex rest sub).map (· + 1)

def strFind (hay sub : String) : Option Nat := subIndex hay.data sub.data

/-- Replace the first occurrence of a value in a list
(`l[l.index(old)] = new`). -/
def replaceFirst (l : List String) (old new : String) : List String :=
  match l with
  | [] => []
  | x :: rest => if x = old then new :: rest else x :: replaceFirst rest old new

/-- `l.index(x)` (`none` models the `ValueError`). -/
def pyIndex (l : List String) (x : String) : Option Nat :=
  match l with
  | [] => none
  | y :: rest => if y = x then some 0 else (pyIndex rest x).map (· + 1)

/-- Python `int(s)` on a decimal string. -/
def digitsVal (cs : List Char) : Int :=
  Int.ofNat (cs.foldl (fun n c => n * 10 + (c.toNat - 48)) 0)

def pyInt (s : String) : Option Int :=
  match s.data with
  | '-' :: rest => if rest ≠ [] ∧ rest.all Char.isDigit then some (-(digitsVal rest)) else none
  | l => if l ≠ [] ∧ l.all Char.isDigit then some (digitsVal l) else none

/-- The `divGen` branch of `add_indices`. -/
def stepDivGen (st : LState) (t : Tok) : Option LState :=
  match t.typ with
  | none => some st
  | some divType => do
    let divN1 := t.n.getD ""
    let divN ←
      if divType = "incipit" ∨ divType = "explicit" then some ""
      else do
        let abbr ← divAbbrev divType
        match strFind divN1 abbr with
        | some idx => some (⟨divN1.data.drop (idx + 1)⟩ : String)
        | none => some divN1
    let hier1 :=
      if divType = "incipit" ∨ divType = "explicit" then
        if "chapter" ∈ st.hierarchy then replaceFirst st.hierarchy "chapter" divType
        else st.hierarchy ++ [divType]
      else st.hierarchy
    let hier2 :=
      if divType = "chapter" then
        if "incipit" ∈ hier1 then replaceFirst hier1 "incipit" "chapter"
        else if "explicit" ∈ hier1 then replaceFirst hier1 "explicit" "chapter"
        else hier1
      else hier1
    let hier3 := if divType ∈ hier2 then hier2 else hier2 ++ [divType]
    let idx1 := dsetS st.indices divType divN
    let pos ← pyIndex hier3 divType
    let idxFinal := (hier3.drop (pos + 1)).foldl (fun d other => dsetS d other "0") idx1
    pure { hierarchy := hier3, indices := idxFinal }

/-- The `w` branch of `add_indices`. -/
def stepW (st : LState) : Option LState := do
  let st1 :=
    if (dgetS st.indices "w").isSome then st
    else { hierarchy := st.hierarchy ++ ["w"], indices := dsetS st.indices "w" "0" }
  let cur ← dgetS st1.indices "w"
  let n ← pyInt cur
  pure { st1 with indices := dsetS st1.indices "w" (toString (n + 2)) }

/-- `add_indices` on one flat token: `divGen` and `w` update the state;
any other childless element recurses into no children. -/
def stepTok (st : LState) (t : Tok) : Option LState :=
  if t.tag = "divGen" then stepDivGen st t
  else if t.tag = "w" then stepW st
  else some st

/-- The citation-label concatenation loops of the `app` branch: iterate
`iterHier`, skipping the verse level when an incipit or explicit is in
the (full) hierarchy, appending abbreviation and index (either lookup
may raise `KeyError`). -/
def labelOfState (fullHier iterHier : List String)
    (indices : List (String × String)) : Option String :=
  iterHier.foldlM
    (fun acc divType =>
      if ("incipit" ∈ fullHier ∨ "explicit" ∈ fullHier) ∧ divType = "verse" then pure acc
      else do
        let ab ← divAbbrev divType
        let iv ← dgetS indices divType
        pure (acc ++ ab ++ iv))
    ""

/-- The `app` branch of `add_indices`: returns the updated state and the
`n` value assigned to the apparatus. -/
def stepApp (st : LState) (a : App) : Option (LState × String) := do
  let st0 :=
    if (dgetS st.indices "w").isSome then st
    else { hierarchy := st.hierarchy ++ ["w"], indices := dsetS st.indices "w" "0" }
  let lem ← a.lems.head?
  let appStart := st0.indices
  let stEnd ← lem.content.foldlM stepTok st0
  let appEnd := stEnd.indices
  if pyDictEq appStart appEnd then
    -- paratextual apparatus, or an omission in the lemma
    let hasW := a.lems.any (fun l => l.content.any (fun t => t.tag = "w")) ||
      a.rdgs.any (fun r => r.content.any (fun t => t.tag = "w"))
    let appStart1 ←
      if hasW then do
        let cur ← dgetS appStart "w"
        let n ← pyInt cur
        pure (dsetS appStart "w" (toString (n + 1)))
      else pure appStart
    let lbl ← labelOfState stEnd.hierarchy stEnd.hierarchy appStart1
    pure (stEnd, lbl)
  else
    let cur ← dgetS appStart "w"
    let n ← pyInt cur
    let appStart2 := dsetS appStart "w" (toString (n + 2))
    if pyDictEq appStart2 appEnd then
      -- a one-word lemma
      let lbl ← labelOfState stEnd.hierarchy stEnd.hierarchy appStart2
      pure (stEnd, lbl)
    else
      -- a multi-word range
      let diffLevel ← findDiffLevel stEnd.hierarchy appStart2 appEnd
      let pos ← pyIndex stEnd.hierarchy diffLevel
      let pre ← labelOfState stEnd.hierarchy stEnd.hierarchy appStart2
      let suf ← labelOfState stEnd.hierarchy (stEnd.hierarchy.drop pos) appEnd
      pure (stEnd, pre ++ "-" ++ suf)
where
  /-- The first division level at which the start and end indices differ
  (`none` models the `ValueError`/`KeyError` paths). -/
  findDiffLevel (hier : List String) (d1 d2 : List (String × String)) : Option String :=
    match hier with
    | [] => none
    | dt :: rest => do
      let v1 ← dgetS d1 dt
      let v2 ← dgetS d2 dt
      if v1 ≠ v2 then some dt else findDiffLevel rest d1 d2

/-- The body traversal of `add_indices`. -/
def addIndicesBody : LState → List BodyElem → Option (LState × List BodyElem)
  | st, [] => some (st, [])
  | st, .tok t :: rest => do
    let st1 ← stepTok st t
    let (st2, rest') ← addIndicesBody st1 rest
    pure (st2, .tok t :: rest')
  | st, .app a :: rest => do
    let (st1, n) ← stepApp st a
    let (st2, rest') ← addIndicesBody st1 rest
    pure (st2, .app { a with attrN := some n } :: rest')

/-- `tei_labeler.add_indices`, starting from the freshly initialized
state of `tei_labeler.__init__`. -/
def add_indices (body : List BodyElem) : Option (List BodyElem) :=
  (addIndicesBody { hierarchy := [], indices := [] } body).map (·.2)

/-- `tei_labeler.label`. -/
def label (body : List BodyElem) : Option (List BodyElem) := do
  let b1 ← add_types body
  add_indices b1

/-! ### C4: the classification rules of `add_types` -/

/-- The classification chain as the (amended) specification words it:
first matching rule wins, every reading after the first compared against
the first; token comparison is set-based (order- and
multiplicity-insensitive). -/
def claimClassify (primary : String) (variants : List String) : String :=
  if ∀ v ∈ variants, fullFormat v = fullFormat primary then "vocalic"
  else if ∀ v ∈ variants,
      fullFormat (strip_plene v) = fullFormat (strip_plene primary) then "orthographic"
  else if ∀ v ∈ variants,
      ((∀ x ∈ pySplitWs (fullFormat v), x ∈ pySplitWs (fullFormat primary)) ∧
       (∀ x ∈ pySplitWs (fullFormat primary), x ∈ pySplitWs (fullFormat v))) then
    "transposition"
  else if pySplitWs primary = [] ∧ (∀ v ∈ variants, pySplitWs v ≠ []) then "addition"
  else if pySplitWs primary ≠ [] ∧ (∀ v ∈ variants, pySplitWs v = []) then "omission"
  else "substitution"

theorem classifyApp_eq_claim (p : String) (vs : List String) :
    classifyApp p vs = claimClassify p vs := by
  rw [classifyApp, claimClassify]
  by_cases hvoc : ∀ v ∈ vs, fullFormat v = fullFormat p
  · rw [if_pos (by simpa [List.all_eq_true] using hvoc), if_pos hvoc]
  · rw [if_neg (by simpa [List.all_eq_true] using hvoc), if_neg hvoc]
    by_cases horth : ∀ v ∈ vs, fullFormat (strip_plene v) = fullFormat (strip_plene p)
    · rw [if_pos (by simpa [List.all_eq_true] using horth), if_pos horth]
    · rw [if_neg (by simpa [List.all_eq_true] using horth), if_neg horth]
      by_cases htr : ∀ v ∈ vs,
          ((∀ x ∈ pySplitWs (fullFormat v), x ∈ pySplitWs (fullFormat p)) ∧
           (∀ x ∈ pySplitWs (fullFormat p), x ∈ pySplitWs (fullFormat v)))
      · rw [if_pos (by simpa [List.all_eq_true, pySetEq, Bool.and_eq_true] using htr),
          if_pos htr]
      · rw [if_neg (by simpa [List.all_eq_true, pySetEq, Bool.and_eq_true] using htr),
          if_neg htr]
        by_cases hp : pySplitWs p = []
        · rw [if_pos (show (pySplitWs p).length = 0 from by rw [hp]; rfl)]
          by_cases ha : ∀ v ∈ vs, pySplitWs v ≠ []
          · have hb : vs.all (fun v => decide ((pySplitWs v).length ≠ 0)) = true := by
              simp only [List.all_eq_true, decide_eq_true_eq]
              intro v hv
              simpa [List.length_eq_zero] using ha v hv
            rw [if_pos hb, if_pos ⟨hp, ha⟩]
          · have hb : ¬(vs.all (fun v => decide ((pySplitWs v).length ≠ 0)) = true) := by
              simp only [List.all_eq_true, decide_eq_true_eq]
              intro hcon
              exact ha (fun v hv => by simpa [List.length_eq_zero] using hcon v hv)
            rw [if_neg hb, if_neg (fun hc => ha hc.2), if_neg (fun hc => hc.1 hp)]
        · rw [if_neg (show ¬((pySplitWs p).length = 0) from by
            simpa [List.length_eq_zero] using hp)]
          by_cases ho : ∀ v ∈ vs, pySplitWs v = []
          · have hb : vs.all (fun v => decide ((pySplitWs v).length = 0)) = true := by
              simp only [List.all_eq_true, decide_eq_true_eq]
              intro v hv
              simp [List.length_eq_zero, ho v hv]
            rw [if_pos hb, if_neg (fun hc => hp hc.1), if_pos ⟨hp, ho⟩]
          · have hb : ¬(vs.all (fun v => decide ((pySplitWs v).length = 0)) = true) := by
              simp only [List.all_eq_true, decide_eq_true_eq]
              intro hcon
              exact ho (fun v hv => by simpa [List.length_eq_zero] using hcon v hv)
            rw [if_neg hb, if_neg (fun hc => hp hc.1), if_neg (fun hc => ho hc.2)]

/-- A word token with the given text, for the labeler instances. -/
def lW (s : String) : Tok := ⟨"w", none, none, none, some s⟩

/-- The apparatus whose two readings serialize as `A B` and `B A`. -/
def c4App : App :=
  { attrN := none, attrType := none
    lems := [⟨none, [lW "A", lW "B"]⟩]
    rdgs := [⟨some "#L", [lW "A", lW "B"]⟩, ⟨some "#W", [lW "B", lW "A"]⟩] }

/-- C4 counterexample: on readings `A B` vs `B A`, `add_types` assigns
`orthographic`, not `transposition`: `strip_plene` erases every
non-Hebrew letter, so both readings plene-reduce to the same all-space
string and the orthographic rule fires before the transposition rule. -/
theorem c4_ab_ba_is_orthographic :
    add_types [.app c4App] =
      some [.app { c4App with attrType := some "orthographic" }] ∧
    (some "orthographic" : Option String) ≠ some "transposition" := by
  constructor
  · decide
  · decide

/-- C4 amended: `add_types` classifies every apparatus by the
first-matching-rule chain, comparing every reading after the first
`<rdg/>` against the first `<rdg/>` (not against the `<lem/>`), with
set-based (not multiset) token comparison in the transposition rule. -/
theorem c4_add_types_first_rdg_rules (body : List BodyElem)
    (h : ∀ a, BodyElem.app a ∈ body → a.rdgs ≠ []) :
    add_types body = some (body.map (fun e =>
      match e with
      | .tok t => .tok t
      | .app a => .app { a with attrType := some (claimClassify
          (serializeRdg (a.rdgs.headD ⟨none, []⟩))
          (a.rdgs.tail.map serializeRdg)) })) := by
  rw [add_types]
  apply mapM_eq_some_of_forall
  intro e he
  cases e with
  | tok t => rfl
  | app a =>
    cases hr : a.rdgs with
    | nil => exact absurd hr (h a he)
    | cons p vs =>
      simp only [addTypesElem, hr, List.headD_cons, List.tail_cons,
        classifyApp_eq_claim]

theorem c4_add_types_first_rdg_rules_witness :
    add_types [.app c4App] = some ([BodyElem.app c4App].map (fun e =>
      match e with
      | .tok t => .tok t
      | .app a => .app { a with attrType := some (claimClassify
          (serializeRdg (a.rdgs.headD ⟨none, []⟩))
          (a.rdgs.tail.map serializeRdg)) })) :=
  c4_add_types_first_rdg_rules [.app c4App] (fun a ha => by
    rw [List.mem_singleton] at ha
    injection ha with h'
    subst h'
    decide)

/-! ### C5: citation indexing -/

theorem stepTok_w (st : LState) (t : Tok) (ht : t.tag = "w") :
    stepTok st t = stepW st := by
  rw [stepTok, ht]
  rfl

theorem addIndicesBody_append (st : LState) (xs ys : List BodyElem) :
    addIndicesBody st (xs ++ ys) =
      (addIndicesBody st xs).bind (fun p =>
        (addIndicesBody p.1 ys).map (fun q => (q.1, p.2 ++ q.2))) := by
  induction xs generalizing st with
  | nil =>
    rw [List.nil_append, addIndicesBody]
    cases h : addIndicesBody st ys with
    | none => simp [h]
    | some q => simp [h]
  | cons e rest ih =>
    cases e with
    | tok t =>
      rw [List.cons_append, addIndicesBody, addIndicesBody]
      cases h1 : stepTok st t with
      | none => simp
      | some st1 =>
        simp only [Option.bind_eq_bind, Option.some_bind, ih st1]
        cases h2 : addIndicesBody st1 rest with
        | none => simp
        | some p =>
          simp only [Option.some_bind]
          cases h3 : addIndicesBody p.1 ys with
          | none => simp [h3]
          | some q => simp [h3]
    | app a =>
      rw [List.cons_append, addIndicesBody, addIndicesBody]
      cases h1 : stepApp st a with
      | none => simp
      | some sn =>
        simp only [Option.bind_eq_bind, Option.some_bind, ih sn.1]
        cases h2 : addIndicesBody sn.1 rest with
        | none => simp
        | some p =>
          simp only [Option.some_bind]
          cases h3 : addIndicesBody p.1 ys with
          | none => simp [h3]
          | some q => simp [h3]

/-- The traversal state after book `04`, chapter `21`, verse `2` and two
words (the running word index standing at 4). -/
def c5S0 : LState :=
  { hierarchy := ["book", "chapter", "verse", "w"]
    indices := [("book", "04"), ("chapter", "21"), ("verse", "2"), ("w", "4")] }

def c5S1 : LState :=
  { hierarchy := ["book", "chapter", "verse", "w"]
    indices := [("book", "04"), ("chapter", "21"), ("verse", "2"), ("w", "6")] }

def c5S3 : LState :=
  { hierarchy := ["book", "chapter", "verse", "w"]
    indices := [("book", "04"), ("chapter", "21"), ("verse", "2"), ("w", "10")] }

/-- A prefix of body content whose traversal reaches `c5S0`. -/
def c5Pre : List BodyElem :=
  [.tok ⟨"divGen", some "book", some "B04", none, none⟩,
   .tok ⟨"divGen", some "chapter", some "B04K21", none, none⟩,
   .tok ⟨"divGen", some "verse", some "B04K21V2", none, none⟩,
   .tok (lW "one"), .tok (lW "two")]

/-- C5 counterexample: an apparatus whose lemma is a 3-word span
beginning at word index 6 of verse `B04K21V2` is labeled
`B04K21V2U6-U10` (the third word carries index 10 under the +2-per-word
convention), not `B04K21V2U6-U8` as claimed. -/
theorem c5_three_word_span_gets_u6_u10 :
    add_indices (c5Pre ++ [.app ⟨none, none, [⟨none, [lW "a", lW "b", lW "c"]⟩], []⟩]) =
      some (c5Pre ++
        [.app ⟨some "B04K21V2U6-U10", none, [⟨none, [lW "a", lW "b", lW "c"]⟩], []⟩]) ∧
    "B04K21V2U6-U10" ≠ "B04K21V2U6-U8" := by
  constructor
  · decide
  · decide

/-- C5 amended: with the traversal state standing at verse `B04K21V2`
and word index 4, an apparatus whose lemma reading is one word (at word
index 6) receives `n = B04K21V2U6`, and an apparatus whose lemma
reading is a 3-word span (word indices 6, 8, 10) receives
`n = B04K21V2U6-U10`: the range suffix repeats only the division levels
from the first level at which the start and end indices differ. -/
theorem c5_citation_labels (pre pre' : List BodyElem) (w1 w2 w3 : Tok)
    (h1 : w1.tag = "w") (h2 : w2.tag = "w") (h3 : w3.tag = "w")
    (a1 a3 : App) (hl1 : a1.lems = [⟨none, [w1]⟩])
    (hl3 : a3.lems = [⟨none, [w1, w2, w3]⟩])
    (hpre : addIndicesBody ⟨[], []⟩ pre = some (c5S0, pre')) :
    add_indices (pre ++ [.app a1]) =
      some (pre' ++ [.app { a1 with attrN := some "B04K21V2U6" }]) ∧
    add_indices (pre ++ [.app a3]) =
      some (pre' ++ [.app { a3 with attrN := some "B04K21V2U6-U10" }]) := by
  have hw1 : stepW c5S0 = some c5S1 := by decide
  have hw2 : stepW c5S1 = some ⟨["book", "chapter", "verse", "w"],
    [("book", "04"), ("chapter", "21"), ("verse", "2"), ("w", "8")]⟩ := by decide
  have hw3 : stepW ⟨["book", "chapter", "verse", "w"],
    [("book", "04"), ("chapter", "21"), ("verse", "2"), ("w", "8")]⟩ = some c5S3 := by
    decide
  have hfold1 : List.foldlM stepTok c5S0 [w1] = some c5S1 := by
    rw [List.foldlM_cons, stepTok_w c5S0 w1 h1, hw1]
    rfl
  have hfold3 : List.foldlM stepTok c5S0 [w1, w2, w3] = some c5S3 := by
    rw [List.foldlM_cons, stepTok_w c5S0 w1 h1, hw1]
    show List.foldlM stepTok c5S1 [w2, w3] = some c5S3
    rw [List.foldlM_cons, stepTok_w c5S1 w2 h2, hw2]
    show List.foldlM stepTok ⟨["book", "chapter", "verse", "w"],
      [("book", "04"), ("chapter", "21"), ("verse", "2"), ("w", "8")]⟩ [w3] = some c5S3
    rw [List.foldlM_cons, stepTok_w _ w3 h3, hw3]
    rfl
  have hstep1 : stepApp c5S0 a1 = some (c5S1, "B04K21V2U6") := by
    rw [stepApp, hl1]
    simp only [List.head?_cons, Option.bind_eq_bind, Option.some_bind,
      show (dgetS c5S0.indices "w").isSome = true from rfl, if_true,
      show (⟨none, [w1]⟩ : Reading).content = [w1] from rfl, hfold1]
    rw [if_neg (show ¬(pyDictEq c5S0.indices c5S1.indices = true) from by decide)]
    simp only [show dgetS c5S0.indices "w" = some "4" from rfl, Option.some_bind,
      show pyInt "4" = some 4 from rfl]
    rw [if_pos (show pyDictEq (dsetS c5S0.indices "w" (toString ((4 : Int) + 2)))
      c5S1.indices = true from by decide)]
    rw [show labelOfState c5S1.hierarchy c5S1.hierarchy
      (dsetS c5S0.indices "w" (toString ((4 : Int) + 2))) = some "B04K21V2U6" from by
        decide]
    rfl
  have hstep3 : stepApp c5S0 a3 = some (c5S3, "B04K21V2U6-U10") := by
    rw [stepApp, hl3]
    simp only [List.head?_cons, Option.bind_eq_bind, Option.some_bind,
      show (dgetS c5S0.indices "w").isSome = true from rfl, if_true,
      show (⟨none, [w1, w2, w3]⟩ : Reading).content = [w1, w2, w3] from rfl, hfold3]
    rw [if_neg (show ¬(pyDictEq c5S0.indices c5S3.indices = true) from by decide)]
    simp only [show dgetS c5S0.indices "w" = some "4" from rfl, Option.some_bind,
      show pyInt "4" = some 4 from rfl]
    rw [if_neg (show ¬(pyDictEq (dsetS c5S0.indices "w" (toString ((4 : Int) + 2)))
      c5S3.indices = true) from by decide)]
    rw [show stepApp.findDiffLevel c5S3.hierarchy
      (dsetS c5S0.indices "w" (toString ((4 : Int) + 2))) c5S3.indices = some "w" from by
        decide]
    simp only [Option.some_bind]
    rw [show pyIndex c5S3.hierarchy "w" = some 3 from rfl]
    simp only [Option.some_bind]
    rw [show labelOfState c5S3.hierarchy c5S3.hierarchy
      (dsetS c5S0.indices "w" (toString ((4 : Int) + 2))) = some "B04K21V2U6" from by
        decide]
    simp only [Option.some_bind]
    rw [show labelOfState c5S3.hierarchy (c5S3.hierarchy.drop 3) c5S3.indices =
      some "U10" from by decide]
    rfl
  constructor
  · rw [add_indices, addIndicesBody_append, hpre]
    simp [addIndicesBody, hstep1]
  · rw [add_indices, addIndicesBody_append, hpre]
    simp [addIndicesBody, hstep3]

theorem c5_citation_labels_witness :
    (add_indices (c5Pre ++ [.app ⟨none, none, [⟨none, [lW "x"]⟩], []⟩]) =
      some (c5Pre ++ [.app { (⟨none, none, [⟨none, [lW "x"]⟩], []⟩ : App) with
        attrN := some "B04K21V2U6" }])) ∧
    add_indices (c5Pre ++ [.app ⟨none, none, [⟨none, [lW "x", lW "y", lW "z"]⟩], []⟩]) =
      some (c5Pre ++ [.app { (⟨none, none, [⟨none, [lW "x", lW "y", lW "z"]⟩], []⟩ : App)
        with attrN := some "B04K21V2U6-U10" }]) :=
  c5_citation_labels c5Pre c5Pre (lW "x") (lW "y") (lW "z") rfl rfl rfl
    ⟨none, none, [⟨none, [lW "x"]⟩], []⟩ ⟨none, none, [⟨none, [lW "x", lW "y", lW "z"]⟩], []⟩
    rfl rfl (by decide)

/-! ### C8: labeling is idempotent -/

/-- A body child already carrying the `type` value `add_types` computes
for it. -/
def TypedElem : BodyElem → Prop
  | .tok _ => True
  | .app a => ∃ p vs, a.rdgs = p :: vs ∧
      a.attrType = some (classifyApp (serializeRdg p) (vs.map serializeRdg))

theorem addTypesElem_of_typed (e : BodyElem) (h : TypedElem e) :
    addTypesElem e = some e := by
  cases e with
  | tok t => rfl
  | app a =>
    obtain ⟨p, vs, hr, ht⟩ := h
    cases a with
    | mk n t ls rs =>
      simp only at hr ht
      subst hr
      show some (BodyElem.app ⟨n, some (classifyApp (serializeRdg p)
        (vs.map serializeRdg)), ls, p :: vs⟩) = some (BodyElem.app ⟨n, t, ls, p :: vs⟩)
      rw [ht]

theorem add_types_output_typed (body b1 : List BodyElem)
    (h : add_types body = some b1) : ∀ e ∈ b1, TypedElem e := by
  induction body generalizing b1 with
  | nil =>
    rw [add_types] at h
    simp only [List.mapM_nil, Option.pure_def, Option.some_inj] at h
    subst h
    intro e he
    simp at he
  | cons x xs ih =>
    rw [add_types, List.mapM_cons] at h
    cases hx : addTypesElem x with
    | none => rw [hx] at h; simp at h
    | some y =>
      rw [hx] at h
      cases hxs : xs.mapM addTypesElem with
      | none => rw [hxs] at h; simp at h
      | some ys =>
        rw [hxs] at h
        simp only [Option.bind_eq_bind, Option.some_bind, Option.pure_def,
          Option.some_inj] at h
        subst h
        intro e he
        rcases List.mem_cons.mp he with rfl | hmem
        · cases x with
          | tok t =>
            rw [addTypesElem] at hx
            simp only [Option.some_inj] at hx
            subst hx
            trivial
          | app a =>
            rw [addTypesElem] at hx
            cases hr : a.rdgs with
            | nil => rw [hr] at hx; simp at hx
            | cons p vs =>
              rw [hr] at hx
              simp only [Option.some_inj] at hx
              subst hx
              exact ⟨p, vs, rfl, rfl⟩
        · exact ih ys (by rw [add_types, hxs]) e hmem

theorem add_types_of_typed (b : List BodyElem) (h : ∀ e ∈ b, TypedElem e) :
    add_types b = some b := by
  rw [add_types]
  have hm := mapM_eq_some_of_forall addTypesElem id b
    (fun e he => by rw [addTypesElem_of_typed e (h e he)]; rfl)
  rw [hm, List.map_id]

theorem stepApp_ignores_attrs (st : LState) (n t : Option String)
    (lems rdgs : List Reading) :
    stepApp st ⟨n, t, lems, rdgs⟩ = stepApp st ⟨none, none, lems, rdgs⟩ := rfl

theorem addIndicesBody_preserves_typed (st : LState) (b : List BodyElem)
    (st' : LState) (out : List BodyElem)
    (h : addIndicesBody st b = some (st', out)) (ht : ∀ e ∈ b, TypedElem e) :
    ∀ e ∈ out, TypedElem e := by
  induction b generalizing st out with
  | nil =>
    rw [addIndicesBody] at h
    simp only [Option.some_inj, Prod.mk.injEq] at h
    intro e he
    rw [← h.2] at he
    simp at he
  | cons x xs ih =>
    cases x with
    | tok tk =>
      rw [addIndicesBody] at h
      cases h1 : stepTok st tk with
      | none => rw [h1] at h; simp at h
      | some st1 =>
        rw [h1] at h
        simp only [Option.bind_eq_bind, Option.some_bind] at h
        cases h2 : addIndicesBody st1 xs with
        | none => rw [h2] at h; simp at h
        | some p =>
          rw [h2] at h
          simp only [Option.some_bind, Option.pure_def, Option.some_inj, Prod.mk.injEq] at h
          intro e he
          rw [← h.2] at he
          rcases List.mem_cons.mp he with rfl | hmem
          · trivial
          · exact ih st1 p.2 (by rw [h2, ← h.1]) (fun e' he' => ht e' (by simp [he'])) e hmem
    | app a =>
      rw [addIndicesBody] at h
      cases h1 : stepApp st a with
      | none => rw [h1] at h; simp at h
      | some sn =>
        rw [h1] at h
        simp only [Option.bind_eq_bind, Option.some_bind] at h
        cases h2 : addIndicesBody sn.1 xs with
        | none => rw [h2] at h; simp at h
        | some p =>
          rw [h2] at h
          simp only [Option.some_bind, Option.pure_def, Option.some_inj, Prod.mk.injEq] at h
          intro e he
          rw [← h.2] at he
          rcases List.mem_cons.mp he with rfl | hmem
          · obtain ⟨pr, vs, hr, hty⟩ := ht (.app a) (by simp)
            exact ⟨pr, vs, hr, hty⟩
          · exact ih sn.1 p.2 (by rw [h2, ← h.1]) (fun e' he' => ht e' (by simp [he'])) e hmem

theorem addIndicesBody_idempotent (st : LState) (b : List BodyElem)
    (st' : LState) (out : List BodyElem)
    (h : addIndicesBody st b = some (st', out)) :
    addIndicesBody st out = some (st', out) := by
  induction b generalizing st out with
  | nil =>
    rw [addIndicesBody] at h
    simp only [Option.some_inj, Prod.mk.injEq] at h
    rw [← h.1, ← h.2]
    rfl
  | cons x xs ih =>
    cases x with
    | tok tk =>
      rw [addIndicesBody] at h
      cases h1 : stepTok st tk with
      | none => rw [h1] at h; simp at h
      | some st1 =>
        rw [h1] at h
        simp only [Option.bind_eq_bind, Option.some_bind] at h
        cases h2 : addIndicesBody st1 xs with
        | none => rw [h2] at h; simp at h
        | some p =>
          rw [h2] at h
          simp only [Option.some_bind, Option.pure_def, Option.some_inj, Prod.mk.injEq] at h
          rw [← h.2, addIndicesBody, h1]
          simp only [Option.bind_eq_bind, Option.some_bind]
          rw [ih st1 p.2 (by rw [h2, ← h.1])]
          rfl
    | app a =>
      rw [addIndicesBody] at h
      cases h1 : stepApp st a with
      | none => rw [h1] at h; simp at h
      | some sn =>
        rw [h1] at h
        simp only [Option.bind_eq_bind, Option.some_bind] at h
        cases h2 : addIndicesBody sn.1 xs with
        | none => rw [h2] at h; simp at h
        | some p =>
          rw [h2] at h
          simp only [Option.some_bind, Option.pure_def, Option.some_inj, Prod.mk.injEq] at h
          rw [← h.2, addIndicesBody]
          have hstep' : stepApp st { a with attrN := some sn.2 } = some sn := by
            cases a with
            | mk n t ls rs =>
              rw [stepApp_ignores_attrs, ← stepApp_ignores_attrs st n t ls rs, h1]
          rw [hstep']
          simp only [Option.bind_eq_bind, Option.some_bind]
          rw [ih sn.1 p.2 (by rw [h2, ← h.1])]
          rfl

/-- C8: running `label` a second time on the already-labeled output of
a first run reproduces exactly the same `type` and `n` values on every
apparatus (the labeled document is a fixed point of `label`). -/
theorem c8_label_idempotent (body : List BodyElem) :
    match label body with
    | none => True
    | some out => label out = some out := by
  cases hl : label body with
  | none => trivial
  | some out =>
    rw [label] at hl
    cases h1 : add_types body with
    | none => rw [h1] at hl; simp at hl
    | some b1 =>
      rw [h1] at hl
      simp only [Option.bind_eq_bind, Option.some_bind] at hl
      rw [add_indices] at hl
      cases h2 : addIndicesBody { hierarchy := [], indices := [] } b1 with
      | none => rw [h2] at hl; simp at hl
      | some p =>
        rw [h2] at hl
        simp only [Option.map_some', Option.some_inj] at hl
        subst hl
        have htyped1 := add_types_output_typed body b1 h1
        have htypedOut := addIndicesBody_preserves_typed _ b1 p.1 p.2 (by rw [h2])
          htyped1
        have hT : add_types p.2 = some p.2 := add_types_of_typed p.2 htypedOut
        have hI : addIndicesBody { hierarchy := [], indices := [] } p.2 =
            some (p.1, p.2) := addIndicesBody_idempotent _ b1 p.1 p.2 (by rw [h2])
        simp only [label, hT, Option.bind_eq_bind, Option.some_bind]
        rw [add_indices, hI]
        rfl

/-! ## C10: the projections do not mutate the input tree (frame effect)

The flat model of `get_lemma_xml` and `get_witness_xml` above abstracts
the element store away, so their frame effect is stated over a second
embedding of the same two functions in which the lxml store is
explicit: an arena of nodes, indexed by allocation order.  Element
construction (`et.Element`), in-place attribute assignment
(`element.set`), in-place child insertion (`element.append`) and
`copy.deepcopy` act on the arena, and the `xpath` calls are
document-order searches, so every line of the two Python functions has
a direct counterpart below.  The frame property is that every arena
entry that existed before a projection — in particular every node of
the input tree — is unchanged in the output arena. -/

/-- A node of the lxml element store as the projections see it: the tag
(namespace prefix stripped), the attribute dictionary in insertion
order, the text and tail, and the store indices of the children in
document order. -/
structure XNode where
  tag : String
  attrs : List (String × String)
  text : Option String
  tail : Option String
  children : List Nat
deriving DecidableEq

/-- The element store: the node with handle `i` lives at index `i`;
creating an element appends to the store, mutating one rewrites its
entry in place. -/
abbrev Arena := List XNode

/-- `et.Element(tag)`: allocate a fresh attributeless, childless node
and hand back the grown store with the fresh node's index. -/
def allocE (a : Arena) (tag : String) : Arena × Nat :=
  (a ++ [{ tag := tag, attrs := [], text := none, tail := none, children := [] }],
   a.length)

/-- Python dict assignment for the string-valued attribute dictionary:
overwrite the first matching key in place, or append. -/
def dictSetS : List (String × String) → String → String → List (String × String)
  | [], k, v => [(k, v)]
  | (k', v') :: rest, k, v =>
    if k' = k then (k, v) :: rest else (k', v') :: dictSetS rest k v

/-- `element.get(k)` on the attribute dictionary. -/
def dictFindS (d : List (String × String)) (k : String) : Option String :=
  (d.find? (fun p => p.1 = k)).map (·.2)

/-- `element.set(k, v)` on the node at index `i`. -/
def setXAttr (a : Arena) (i : Nat) (k v : String) : Arena :=
  match a.get? i with
  | none => a
  | some n => a.set i { n with attrs := dictSetS n.attrs k v }

/-- `parent.append(child)` for a child with no previous parent (the
projections only ever append freshly created or freshly deep-copied
nodes, so the detach-from-old-parent step of lxml `append` never fires
and is not modelled): add the child's index at the end of the parent's
child list. -/
def appendChild (a : Arena) (p c : Nat) : Arena :=
  match a.get? p with
  | none => a
  | some n => a.set p { n with children := n.children ++ [c] }

/-- `copy.deepcopy` over a list of sibling subtrees: allocate a fresh
isomorphic copy of every node, children before their parent, left to
right, and return the fresh indices of the copied roots.  The fuel
only bounds the recursion depth; any sufficiently large fuel produces
the copy. -/
def deepcopyL : Nat → Arena → List Nat → Option (Arena × List Nat)
  | 0, _, _ => none
  | _ + 1, a, [] => some (a, [])
  | fuel + 1, a, i :: rest =>
    match a.get? i with
    | none => none
    | some n =>
      match deepcopyL fuel a n.children with
      | none => none
      | some (a1, cs) =>
        match deepcopyL fuel (a1 ++ [{ n with children := cs }]) rest with
        | none => none
        | some (a2, js) => some (a2, a1.length :: js)

/-- `copy.deepcopy` of one subtree. -/
def deepcopy1 (fuel : Nat) (a : Arena) (i : Nat) : Option (Arena × Nat) :=
  match deepcopyL fuel a [i] with
  | some (a', [j]) => some (a', j)
  | _ => none

/-- Document-order (preorder) traversal of a list of sibling subtrees,
with fuel bounding the recursion. -/
def preorderL : Nat → Arena → List Nat → Option (List Nat)
  | 0, _, _ => none
  | _ + 1, _, [] => some []
  | fuel + 1, a, i :: rest =>
    match a.get? i with
    | none => none
    | some n =>
      match preorderL fuel a n.children with
      | none => none
      | some sub =>
        match preorderL fuel a rest with
        | none => none
        | some tail => some (i :: (sub ++ tail))

/-- The first node carrying the given tag in a document-order node list
(`xpath(...)[0]`, with the `IndexError` on an empty result as `none`). -/
def firstWithTag (a : Arena) (tag : String) : List Nat → Option Nat
  | [] => none
  | i :: rest =>
    match a.get? i with
    | none => firstWithTag a tag rest
    | some n => if n.tag = tag then some i else firstWithTag a tag rest

/-- All nodes carrying the given tag in a document-order node list. -/
def allWithTag (a : Arena) (tag : String) (l : List Nat) : List Nat :=
  l.filter (fun i => match a.get? i with
    | none => false
    | some n => n.tag = tag)

/-- `xml.xpath('//tei:TAG')[0]`: first match in document order from the
document root, the root itself included. -/
def xpathFirst (fuel : Nat) (a : Arena) (root : Nat) (tag : String) : Option Nat :=
  (preorderL fuel a [root]).bind (firstWithTag a tag)

/-- `node.xpath('.//tei:TAG')[0]`: first match among the strict
descendants of the node. -/
def xpathFirstDesc (fuel : Nat) (a : Arena) (i : Nat) (tag : String) : Option Nat :=
  match a.get? i with
  | none => none
  | some n => (preorderL fuel a n.children).bind (firstWithTag a tag)

/-- `node.xpath('.//tei:TAG')`: all matches among the strict descendants
of the node, in document order. -/
def xpathAllDesc (fuel : Nat) (a : Arena) (i : Nat) (tag : String) :
    Option (List Nat) :=
  match a.get? i with
  | none => none
  | some n => (preorderL fuel a n.children).map (allWithTag a tag)

/-- The scaffold shared by both projections (`get_lemma_xml` lines
52-62, `get_witness_xml` lines 79-89): a fresh `<TEI/>`, a fresh
`<text/>` carrying the input text element's attributes, a fresh
`<body/>`, wired together.  Returns the grown store, the fresh root,
the fresh body, and the input's `<text/>` node. -/
def projScaffold (fuel : Nat) (a : Arena) (root : Nat) :
    Option (Arena × Nat × Nat × Nat) :=
  let p1 := allocE a "TEI"
  let p2 := allocE p1.1 "text"
  match xpathFirst fuel p2.1 root "text" with
  | none => none
  | some textI =>
    match p2.1.get? textI with
    | none => none
    | some textN =>
      let a3 := textN.attrs.foldl (fun acc kv => setXAttr acc p2.2 kv.1 kv.2) p2.1
      let a4 := appendChild a3 p1.2 p2.2
      let p5 := allocE a4 "body"
      let a6 := appendChild p5.1 p2.2 p5.2
      some (a6, p1.2, p5.2, textI)

/-- The inner `for lem_child in lem` / `for wit_rdg_child in wit_rdg`
loop of the projections: append a deep copy of every listed node to the
fresh body. -/
def copyAppendLoop (fuel bodyI : Nat) : List Nat → Arena → Option Arena
  | [], a => some a
  | c :: rest, a =>
    match deepcopy1 fuel a c with
    | none => none
    | some p => copyAppendLoop fuel bodyI rest (appendChild p.1 bodyI p.2)

/-- The `for child in body` loop of `get_lemma_xml`: an apparatus
contributes deep copies of the children of its first `<lem/>`
descendant (`none` when it has no lemma reading), every other child is
deep-copied as-is. -/
def lemmaBodyLoop (fuel bodyI : Nat) : List Nat → Arena → Option Arena
  | [], a => some a
  | childI :: rest, a =>
    match a.get? childI with
    | none => none
    | some childN =>
      if childN.tag = "app" then
        match xpathFirstDesc fuel a childI "lem" with
        | none => none
        | some lemI =>
          match a.get? lemI with
          | none => none
          | some lemN =>
            match copyAppendLoop fuel bodyI lemN.children a with
            | none => none
            | some a1 => lemmaBodyLoop fuel bodyI rest a1
      else
        match deepcopy1 fuel a childI with
        | none => none
        | some p => lemmaBodyLoop fuel bodyI rest (appendChild p.1 bodyI p.2)

/-- The `for rdg in child.xpath('.//tei:rdg')` scan of
`get_witness_xml`: the first reading whose whitespace-split `wit` list
contains the reference wins (`some (some r)`); a reading without a
`wit` attribute raises an `AttributeError` (`none`); when no reading
matches, the loop falls through (`some none`) and the fresh placeholder
stays in force. -/
def pickWitRdg (a : Arena) (ref : String) : List Nat → Option (Option Nat)
  | [] => some none
  | r :: rest =>
    match a.get? r with
    | none => none
    | some n =>
      match dictFindS n.attrs "wit" with
      | none => none
      | some wv =>
        if ref ∈ pySplitWs wv then some (some r) else pickWitRdg a ref rest

/-- The `for child in body` loop of `get_witness_xml`: for an apparatus
a fresh placeholder `<rdg/>` is allocated, the matching reading (or the
placeholder) is selected, and deep copies of its children are appended;
every other child is deep-copied as-is. -/
def witnessBodyLoop (fuel bodyI : Nat) (ref : String) : List Nat → Arena → Option Arena
  | [], a => some a
  | childI :: rest, a =>
    match a.get? childI with
    | none => none
    | some childN =>
      if childN.tag = "app" then
        let p1 := allocE a "rdg"
        match xpathAllDesc fuel p1.1 childI "rdg" with
        | none => none
        | some rdgs =>
          match pickWitRdg p1.1 ref rdgs with
          | none => none
          | some pick =>
            match p1.1.get? (pick.getD p1.2) with
            | none => none
            | some witRdgN =>
              match copyAppendLoop fuel bodyI witRdgN.children p1.1 with
              | none => none
              | some a2 => witnessBodyLoop fuel bodyI ref rest a2
      else
        match deepcopy1 fuel a childI with
        | none => none
        | some p => witnessBodyLoop fuel bodyI ref rest (appendChild p.1 bodyI p.2)

/-- `tei_collation_editor.get_lemma_xml` on the arena: build the
scaffold, find the input's `<body/>` under its `<text/>`, run the body
loop, and return the grown store with the fresh root's index. -/
def getLemmaXmlA (fuel : Nat) (a : Arena) (root : Nat) : Option (Arena × Nat) :=
  match projScaffold fuel a root with
  | none => none
  | some q =>
    match xpathFirstDesc fuel q.1 q.2.2.2 "body" with
    | none => none
    | some bodyI =>
      match q.1.get? bodyI with
      | none => none
      | some bodyN =>
        (lemmaBodyLoop fuel q.2.2.1 bodyN.children q.1).map (fun a7 => (a7, q.2.1))

/-- `tei_collation_editor.get_witness_xml` on the arena, for the
witness `wit`. -/
def getWitnessXmlA (fuel : Nat) (a : Arena) (root : Nat) (wit : String) :
    Option (Arena × Nat) :=
  match projScaffold fuel a root with
  | none => none
  | some q =>
    match xpathFirstDesc fuel q.1 q.2.2.2 "body" with
    | none => none
    | some bodyI =>
      match q.1.get? bodyI with
      | none => none
      | some bodyN =>
        (witnessBodyLoop fuel q.2.2.1 ("#" ++ wit) bodyN.children q.1).map
          (fun a7 => (a7, q.2.1))

/-- The frame of a call on the store: every entry that existed before
is unchanged after, and the store has not shrunk below the old
length. -/
def PrefixKept (n : Nat) (a a' : Arena) : Prop :=
  n ≤ a'.length ∧ ∀ k, k < n → a'.get? k = a.get? k

theorem prefixKept_refl {n : Nat} {a : Arena} (h : n ≤ a.length) :
    PrefixKept n a a :=
  ⟨h, fun _ _ => rfl⟩

theorem prefixKept_trans {n : Nat} {a b c : Arena} (h1 : PrefixKept n a b)
    (h2 : PrefixKept n b c) : PrefixKept n a c :=
  ⟨h2.1, fun k hk => (h2.2 k hk).trans (h1.2 k hk)⟩

theorem prefixKept_append {n : Nat} {a : Arena} (h : n ≤ a.length)
    (ext : Arena) : PrefixKept n a (a ++ ext) := by
  refine ⟨by simp; omega, fun k hk => ?_⟩
  exact List.get?_append (lt_of_lt_of_le hk h)

theorem prefixKept_allocE {n : Nat} {a : Arena} (h : n ≤ a.length) (t : String) :
    PrefixKept n a (allocE a t).1 :=
  prefixKept_append h _

theorem setXAttr_length (a : Arena) (i : Nat) (k v : String) :
    (setXAttr a i k v).length = a.length := by
  unfold setXAttr
  cases a.get? i <;> simp

theorem appendChild_length (a : Arena) (p c : Nat) :
    (appendChild a p c).length = a.length := by
  unfold appendChild
  cases a.get? p <;> simp

theorem prefixKept_set {n : Nat} {a : Arena} {i : Nat} (hn : n ≤ a.length)
    (hi : n ≤ i) (x : XNode) : PrefixKept n a (a.set i x) := by
  refine ⟨by simp [hn], fun k hk => ?_⟩
  exact List.get?_set_ne _ _ (by omega)

theorem prefixKept_setXAttr {n : Nat} {a : Arena} {i : Nat} (hn : n ≤ a.length)
    (hi : n ≤ i) (k v : String) : PrefixKept n a (setXAttr a i k v) := by
  unfold setXAttr
  cases a.get? i with
  | none => exact prefixKept_refl hn
  | some m => exact prefixKept_set hn hi _

theorem prefixKept_appendChild {n : Nat} {a : Arena} {p : Nat} (hn : n ≤ a.length)
    (hp : n ≤ p) (c : Nat) : PrefixKept n a (appendChild a p c) := by
  unfold appendChild
  cases a.get? p with
  | none => exact prefixKept_refl hn
  | some m => exact prefixKept_set hn hp _

theorem setFold_length (i : Nat) :
    ∀ (l : List (String × String)) (a : Arena),
      (l.foldl (fun acc kv => setXAttr acc i kv.1 kv.2) a).length = a.length := by
  intro l
  induction l with
  | nil => intro a; rfl
  | cons kv rest ih =>
    intro a
    simp only [List.foldl_cons]
    rw [ih, setXAttr_length]

theorem prefixKept_setFold {n i : Nat} (hi : n ≤ i) :
    ∀ (l : List (String × String)) (a : Arena), n ≤ a.length →
      PrefixKept n a (l.foldl (fun acc kv => setXAttr acc i kv.1 kv.2) a) := by
  intro l
  induction l with
  | nil => intro a hn; exact prefixKept_refl hn
  | cons kv rest ih =>
    intro a hn
    simp only [List.foldl_cons]
    exact prefixKept_trans (prefixKept_setXAttr hn hi kv.1 kv.2)
      (ih _ (by rw [setXAttr_length]; exact hn))

theorem deepcopyL_ext :
    ∀ (fuel : Nat) (a : Arena) (l : List Nat) (a' : Arena) (js : List Nat),
      deepcopyL fuel a l = some (a', js) → ∃ ext, a' = a ++ ext := by
  intro fuel
  induction fuel with
  | zero => intro a l a' js h; simp [deepcopyL] at h
  | succ fuel ih =>
    intro a l a' js h
    cases l with
    | nil =>
      simp only [deepcopyL, Option.some_inj, Prod.mk.injEq] at h
      exact ⟨[], by rw [← h.1, List.append_nil]⟩
    | cons i rest =>
      simp only [deepcopyL] at h
      split at h
      · exact absurd h (by simp)
      · next n hn =>
        split at h
        · exact absurd h (by simp)
        · next a1 cs h1 =>
          split at h
          · exact absurd h (by simp)
          · next a2 js2 h2 =>
            obtain ⟨e1, he1⟩ := ih _ _ _ _ h1
            obtain ⟨e2, he2⟩ := ih _ _ _ _ h2
            simp only [Option.some_inj, Prod.mk.injEq] at h
            refine ⟨e1 ++ [{ n with children := cs }] ++ e2, ?_⟩
            rw [← h.1, he2, he1]
            simp

theorem prefixKept_deepcopy1 {fuel : Nat} {a : Arena} {c : Nat} {p : Arena × Nat}
    {n : Nat} (h : deepcopy1 fuel a c = some p) (hn : n ≤ a.length) :
    PrefixKept n a p.1 := by
  unfold deepcopy1 at h
  split at h
  · next a' j heq =>
    obtain ⟨ext, hext⟩ := deepcopyL_ext _ _ _ _ _ heq
    simp only [Option.some_inj] at h
    rw [← h]
    exact hext ▸ prefixKept_append hn ext
  · exact absurd h (by simp)

theorem copyAppendLoop_frame {fuel bodyI n : Nat} (hb : n ≤ bodyI) :
    ∀ (l : List Nat) (a a' : Arena), n ≤ a.length →
      copyAppendLoop fuel bodyI l a = some a' → PrefixKept n a a' := by
  intro l
  induction l with
  | nil =>
    intro a a' hn h
    simp only [copyAppendLoop, Option.some_inj] at h
    exact h ▸ prefixKept_refl hn
  | cons c rest ih =>
    intro a a' hn h
    simp only [copyAppendLoop] at h
    split at h
    · exact absurd h (by simp)
    · next p hd =>
      have h1 : PrefixKept n a p.1 := prefixKept_deepcopy1 hd hn
      have h2 : PrefixKept n p.1 (appendChild p.1 bodyI p.2) :=
        prefixKept_appendChild h1.1 hb p.2
      have h3 := ih _ a' (by rw [appendChild_length]; exact h1.1) h
      exact prefixKept_trans h1 (prefixKept_trans h2 h3)

theorem lemmaBodyLoop_frame {fuel bodyI n : Nat} (hb : n ≤ bodyI) :
    ∀ (l : List Nat) (a a' : Arena), n ≤ a.length →
      lemmaBodyLoop fuel bodyI l a = some a' → PrefixKept n a a' := by
  intro l
  induction l with
  | nil =>
    intro a a' hn h
    simp only [lemmaBodyLoop, Option.some_inj] at h
    exact h ▸ prefixKept_refl hn
  | cons childI rest ih =>
    intro a a' hn h
    simp only [lemmaBodyLoop] at h
    split at h
    · exact absurd h (by simp)
    · split at h
      · -- app branch
        split at h
        · exact absurd h (by simp)
        · split at h
          · exact absurd h (by simp)
          · split at h
            · exact absurd h (by simp)
            · next a1 hloop =>
              have h1 : PrefixKept n a a1 := copyAppendLoop_frame hb _ _ _ hn hloop
              exact prefixKept_trans h1 (ih _ a' h1.1 h)
      · -- plain branch
        split at h
        · exact absurd h (by simp)
        · next p hd =>
          have h1 : PrefixKept n a p.1 := prefixKept_deepcopy1 hd hn
          have h2 : PrefixKept n p.1 (appendChild p.1 bodyI p.2) :=
            prefixKept_appendChild h1.1 hb p.2
          have h3 := ih _ a' (by rw [appendChild_length]; exact h1.1) h
          exact prefixKept_trans h1 (prefixKept_trans h2 h3)

theorem witnessBodyLoop_frame {fuel bodyI n : Nat} {ref : String} (hb : n ≤ bodyI) :
    ∀ (l : List Nat) (a a' : Arena), n ≤ a.length →
      witnessBodyLoop fuel bodyI ref l a = some a' → PrefixKept n a a' := by
  intro l
  induction l with
  | nil =>
    intro a a' hn h
    simp only [witnessBodyLoop, Option.some_inj] at h
    exact h ▸ prefixKept_refl hn
  | cons childI rest ih =>
    intro a a' hn h
    simp only [witnessBodyLoop] at h
    split at h
    · exact absurd h (by simp)
    · split at h
      · -- app branch
        split at h
        · exact absurd h (by simp)
        · split at h
          · exact absurd h (by simp)
          · split at h
            · exact absurd h (by simp)
            · split at h
              · exact absurd h (by simp)
              · next a2 hloop =>
                have h0 : PrefixKept n a (allocE a "rdg").1 :=
                  prefixKept_allocE hn "rdg"
                have h1 : PrefixKept n (allocE a "rdg").1 a2 :=
                  copyAppendLoop_frame hb _ _ _ h0.1 hloop
                exact prefixKept_trans h0 (prefixKept_trans h1 (ih _ a' h1.1 h))
      · -- plain branch
        split at h
        · exact absurd h (by simp)
        · next p hd =>
          have h1 : PrefixKept n a p.1 := prefixKept_deepcopy1 hd hn
          have h2 : PrefixKept n p.1 (appendChild p.1 bodyI p.2) :=
            prefixKept_appendChild h1.1 hb p.2
          have h3 := ih _ a' (by rw [appendChild_length]; exact h1.1) h
          exact prefixKept_trans h1 (prefixKept_trans h2 h3)

/-- Index of a fresh allocation: the old store length. -/
theorem allocE_idx (a : Arena) (t : String) : (allocE a t).2 = a.length := rfl

/-- Length of the store after a fresh allocation. -/
theorem allocE_length (a : Arena) (t : String) :
    (allocE a t).1.length = a.length + 1 := by
  simp [allocE]

theorem projScaffold_frame {fuel : Nat} {a : Arena} {root : Nat}
    {q : Arena × Nat × Nat × Nat} (h : projScaffold fuel a root = some q) :
    PrefixKept a.length a q.1 ∧ a.length ≤ q.2.2.1 := by
  obtain ⟨qa, qt, qb, qi⟩ := q
  simp only [projScaffold] at h
  split at h
  · exact absurd h (by simp)
  · split at h
    · exact absurd h (by simp)
    · next textN htN =>
      simp only [Option.some_inj, Prod.mk.injEq] at h
      obtain ⟨h1, h2, h3, h4⟩ := h
      subst h1; subst h2; subst h3; subst h4
      constructor
      · refine prefixKept_trans ?_ (prefixKept_appendChild ?_ ?_ _)
        · refine prefixKept_trans ?_ (prefixKept_allocE ?_ _)
          · refine prefixKept_trans ?_ (prefixKept_appendChild ?_ ?_ _)
            · refine prefixKept_trans ?_ (prefixKept_setFold ?_ _ _ ?_)
              · exact prefixKept_trans (prefixKept_allocE (le_refl _) _)
                  (prefixKept_allocE (by simp only [allocE_length]; omega) _)
              · simp only [allocE_idx, allocE_length]; omega
              · simp only [allocE_length]; omega
            · simp only [setFold_length, allocE_length]; omega
            · simp only [allocE_idx]; omega
          · simp only [appendChild_length, setFold_length, allocE_length]; omega
        · simp only [allocE_length, appendChild_length, setFold_length]; omega
        · simp only [allocE_idx, allocE_length]; omega
      · simp only [allocE_idx, appendChild_length, setFold_length, allocE_length]
        omega

theorem getLemmaXmlA_frame {fuel : Nat} {a : Arena} {root : Nat} {p : Arena × Nat}
    (h : getLemmaXmlA fuel a root = some p) : PrefixKept a.length a p.1 := by
  unfold getLemmaXmlA at h
  split at h
  · exact absurd h (by simp)
  · next q hq =>
    split at h
    · exact absurd h (by simp)
    · next bodyI hb =>
      split at h
      · exact absurd h (by simp)
      · next bodyN hbn =>
        cases hl : lemmaBodyLoop fuel q.2.2.1 bodyN.children q.1 with
        | none => rw [hl] at h; simp at h
        | some a7 =>
          rw [hl] at h
          simp only [Option.map_some', Option.some_inj] at h
          obtain ⟨hs, hbound⟩ := projScaffold_frame hq
          have hloop := lemmaBodyLoop_frame hbound _ _ _ hs.1 hl
          rw [← h]
          exact prefixKept_trans hs hloop

theorem getWitnessXmlA_frame {fuel : Nat} {a : Arena} {root : Nat} {wit : String}
    {p : Arena × Nat} (h : getWitnessXmlA fuel a root wit = some p) :
    PrefixKept a.length a p.1 := by
  unfold getWitnessXmlA at h
  split at h
  · exact absurd h (by simp)
  · next q hq =>
    split at h
    · exact absurd h (by simp)
    · next bodyI hb =>
      split at h
      · exact absurd h (by simp)
      · next bodyN hbn =>
        cases hl : witnessBodyLoop fuel q.2.2.1 ("#" ++ wit) bodyN.children q.1 with
        | none => rw [hl] at h; simp at h
        | some a7 =>
          rw [hl] at h
          simp only [Option.map_some', Option.some_inj] at h
          obtain ⟨hs, hbound⟩ := projScaffold_frame hq
          have hloop := witnessBodyLoop_frame hbound _ _ _ hs.1 hl
          rw [← h]
          exact prefixKept_trans hs hloop

/-- C10: the projections never mutate the input store. -/
theorem c10_projections_leave_input_unchanged (fuel : Nat) (a : Arena)
    (root : Nat) (wit : String) :
    (match getLemmaXmlA fuel a root with
     | none => True
     | some p => ∀ k, k < a.length → p.1.get? k = a.get? k) ∧
    (match getWitnessXmlA fuel a root wit with
     | none => True
     | some p => ∀ k, k < a.length → p.1.get? k = a.get? k) := by
  constructor
  · cases h : getLemmaXmlA fuel a root with
    | none => trivial
    | some p => exact (getLemmaXmlA_frame h).2
  · cases h : getWitnessXmlA fuel a root wit with
    | none => trivial
    | some p => exact (getWitnessXmlA_frame h).2

/-- A small concrete document on the arena. -/
def sampleArena : Arena :=
  [{ tag := "TEI", attrs := [], text := none, tail := none, children := [1] },
   { tag := "text", attrs := [("type", "x")], text := none, tail := none, children := [2] },
   { tag := "body", attrs := [], text := none, tail := none, children := [3, 4] },
   { tag := "w", attrs := [], text := some "a", tail := none, children := [] },
   { tag := "app", attrs := [], text := none, tail := none, children := [5, 6] },
   { tag := "lem", attrs := [("wit", "#A #B")], text := none, tail := none, children := [7] },
   { tag := "rdg", attrs := [("wit", "#C")], text := none, tail := none, children := [8] },
   { tag := "w", attrs := [], text := some "b", tail := none, children := [] },
   { tag := "w", attrs := [], text := some "c", tail := none, children := [] }]

theorem getLemmaXmlA_sample_completes :
    (getLemmaXmlA 32 sampleArena 0).isSome = true := by rfl

theorem getWitnessXmlA_sample_completes :
    (getWitnessXmlA 32 sampleArena 0 "C").isSome = true := by rfl

end SolidRock
